import Mathlib

/-!
Verification development for the `buzzer` module-bundler fuzzing harness
(`src/index.ts`).  The generator state (`Trial.internalIdIncrementor`,
`Trial.modules`) is embedded as explicit state threaded through a small
state monad `GenM`; `Math.random` is embedded as an arbitrary stream of
natural numbers (`stream : Nat → Nat`), quantified over in the theorems.
`unwrap` failures (out-of-range list indexing in `pick`) surface as `none`.
Machine numbers in the source are small non-negative counters and list
lengths, so `Nat` models them exactly.
-/

set_option maxRecDepth 10000

/-! ## Base-36 identifier rendering (`(n).toString(36)` in the source) -/

/-- One base-36 digit character: `0`-`9` then `a`-`z`, as produced by
JavaScript `Number.prototype.toString(36)`. -/
def base36Char (n : Nat) : Char :=
  if n < 10 then Char.ofNat (48 + n) else Char.ofNat (87 + n)

/-- Fueled base-36 digit expansion; with `fuel ≥ n` this is exactly the
digit string of `n` in base 36, most significant digit first. -/
def toBase36Core : Nat → Nat → List Char
  | 0, n => [base36Char (n % 36)]
  | fuel + 1, n =>
    if n < 36 then [base36Char n]
    else toBase36Core fuel (n / 36) ++ [base36Char (n % 36)]

/-- `n.toString(36)` from the source. -/
def toBase36 (n : Nat) : String :=
  String.mk (toBase36Core n n)

/-- Numeric value of a base-36 digit character. -/
def base36Val (c : Char) : Nat :=
  if 97 ≤ c.toNat then c.toNat - 87 else c.toNat - 48

/-- Parse a base-36 digit list, most significant first. -/
def fromBase36 (l : List Char) : Nat :=
  l.foldl (fun acc c => acc * 36 + base36Val c) 0

theorem base36Val_base36Char : ∀ k, k < 36 → base36Val (base36Char k) = k := by
  decide

theorem base36Char_ne_underscore : ∀ k, k < 36 → base36Char k ≠ '_' := by
  decide

theorem fromBase36_append_singleton (l : List Char) (c : Char) :
    fromBase36 (l ++ [c]) = fromBase36 l * 36 + base36Val c := by
  simp [fromBase36, List.foldl_append]

theorem fromBase36_toBase36Core :
    ∀ fuel n, n ≤ fuel → fromBase36 (toBase36Core fuel n) = n := by
  intro fuel
  induction fuel with
  | zero =>
    intro n hn
    interval_cases n
    simp [toBase36Core, fromBase36, base36Val, base36Char]
  | succ fuel ih =>
    intro n hn
    by_cases h36 : n < 36
    · simp only [toBase36Core, if_pos h36, fromBase36, List.foldl_cons,
        List.foldl_nil, Nat.zero_mul, Nat.zero_add]
      exact base36Val_base36Char n h36
    · have hpos : 0 < n := by omega
      have hdivlt : n / 36 < n := Nat.div_lt_self hpos (by omega)
      have hdivle : n / 36 ≤ fuel := by omega
      simp only [toBase36Core, if_neg h36]
      rw [fromBase36_append_singleton, ih _ hdivle,
        base36Val_base36Char _ (Nat.mod_lt _ (by omega))]
      have := Nat.div_add_mod n 36
      omega

theorem underscore_not_mem_toBase36Core :
    ∀ fuel n, '_' ∉ toBase36Core fuel n := by
  intro fuel
  induction fuel with
  | zero =>
    intro n
    simp only [toBase36Core, List.mem_singleton]
    exact fun h => base36Char_ne_underscore _ (Nat.mod_lt _ (by omega)) h.symm
  | succ fuel ih =>
    intro n
    by_cases h36 : n < 36
    · simp only [toBase36Core, if_pos h36, List.mem_singleton]
      exact fun h => base36Char_ne_underscore _ h36 h.symm
    · simp only [toBase36Core, if_neg h36, List.mem_append, List.mem_singleton]
      rintro (h | h)
      · exact ih _ h
      · exact base36Char_ne_underscore _ (Nat.mod_lt _ (by omega)) h.symm

theorem toBase36Core_self_inj {a b : Nat}
    (hd : toBase36Core a a = toBase36Core b b) : a = b := by
  calc a = fromBase36 (toBase36Core a a) := (fromBase36_toBase36Core a a le_rfl).symm
    _ = fromBase36 (toBase36Core b b) := by rw [hd]
    _ = b := fromBase36_toBase36Core b b le_rfl

theorem toBase36_inj {a b : Nat} (h : toBase36 a = toBase36 b) : a = b := by
  apply toBase36Core_self_inj
  have := congrArg String.data h
  simpa [toBase36] using this

/-! ## Identifier and export-name shapes

`Trial.getInternalId` returns `` `e${(inc++).toString(36)}` ``; original
export names are `` `export_${getInternalId()}` ``. -/

/-- The module/internal identifier minted by `getInternalId` for counter
value `k`. -/
def idOf (k : Nat) : String := "e" ++ toBase36 k

/-- The original-export name minted by `addOriginalExports` for counter
value `k`. -/
def nameOf (k : Nat) : String := "export_" ++ idOf k

theorem idOf_data (k : Nat) : (idOf k).data = 'e' :: toBase36Core k k := by
  simp [idOf, toBase36]

theorem nameOf_data (k : Nat) :
    (nameOf k).data
      = 'e' :: 'x' :: 'p' :: 'o' :: 'r' :: 't' :: '_' :: 'e' :: toBase36Core k k := by
  simp [nameOf, idOf, toBase36]

theorem idOf_inj {a b : Nat} (h : idOf a = idOf b) : a = b := by
  have hd := congrArg String.data h
  rw [idOf_data, idOf_data] at hd
  injection hd with _ hd
  exact toBase36Core_self_inj hd

theorem nameOf_inj {a b : Nat} (h : nameOf a = nameOf b) : a = b := by
  have hd := congrArg String.data h
  rw [nameOf_data, nameOf_data] at hd
  repeat injection hd with _ hd
  exact toBase36Core_self_inj hd

theorem nameOf_ne_idOf (k j : Nat) : nameOf k ≠ idOf j := by
  intro h
  have hd := congrArg String.data h
  rw [nameOf_data, idOf_data] at hd
  injection hd with _ hd
  have : '_' ∈ toBase36Core j j := by
    rw [← hd]
    simp
  exact underscore_not_mem_toBase36Core j j this

/-! ## Data model (`TrialExport`, `TaggedTrialExport`, `TrialModule`) -/

/-- The binding mode chosen at first import: `pick("static", "dynamic")`. -/
inductive Means where
  | static : Means
  | dynamic : Means
deriving DecidableEq, Repr

/-- `TrialExport` from the source: `{ importedFrom, name }`. -/
structure TrialExport where
  importedFrom : String
  name : String
deriving DecidableEq, Repr

/-- `TaggedTrialExport`: a `TrialExport` plus its binding mode `means`. -/
structure TaggedTrialExport where
  importedFrom : String
  name : String
  means : Means
deriving DecidableEq, Repr

/-- `TrialModule` from the source.  The constant discriminant field
`type: "ecma"` carries no information and is omitted. -/
structure TrialModule where
  id : String
  originals : List String
  imports : List TaggedTrialExport
  sideEffects : List String
  exports : List TrialExport
deriving DecidableEq, Repr

instance : Inhabited TrialModule := ⟨⟨"", [], [], [], []⟩⟩

/-! ## Generator state and monad

Mutable `Trial` state (`internalIdIncrementor`, `modules`) plus the random
source.  `Math.random()`-driven `random(min, max)` is embedded as
`min + v % (max - min + 1)` where `v` is the next value of an arbitrary
stream; universally quantifying over streams covers every sequence of
random draws the source can make. -/

structure GenState where
  counter : Nat
  modules : List TrialModule
  stream : Nat → Nat
  pos : Nat

/-- State-with-failure monad: `none` models a thrown `unwrap` error. -/
abbrev GenM (α : Type) := GenState → Option (α × GenState)

instance : Monad GenM where
  pure a := fun s => some (a, s)
  bind m f := fun s =>
    match m s with
    | none => none
    | some (a, s') => f a s'

theorem GenM.bind_def {α β : Type} (m : GenM α) (f : α → GenM β) (s : GenState) :
    (m >>= f) s
      = match m s with
        | none => none
        | some (a, s') => f a s' := rfl

theorem GenM.pure_def {α : Type} (a : α) (s : GenState) :
    (pure a : GenM α) s = some (a, s) := rfl

/-- Draw the next raw random value. -/
def nextRand : GenM Nat :=
  fun s => some (s.stream s.pos, { s with pos := s.pos + 1 })

/-- `random(min, max)` from the source:
`Math.floor(Math.random() * (max - min + 1)) + min`. -/
def randomInt (min max : Nat) : GenM Nat := do
  let v ← nextRand
  pure (min + v % (max - min + 1))

/-- `unwrap` from `@vortexjs/common`: throws (`none`) on `undefined`. -/
def unwrapM {α : Type} (x : Option α) : GenM α :=
  fun s =>
    match x with
    | some v => some (v, s)
    | none => none

/-- `pick(...items)`: `unwrap(items[random(0, items.length - 1)])`. -/
def pickM {α : Type} (items : List α) : GenM α := do
  let i ← randomInt 0 (items.length - 1)
  unwrapM (items.get? i)

/-- `Trial.getInternalId`: `` `e${(this.internalIdIncrementor++).toString(36)}` ``. -/
def getInternalId : GenM String :=
  fun s => some (idOf s.counter, { s with counter := s.counter + 1 })

def getModules : GenM (List TrialModule) :=
  fun s => some (s.modules, s)

/-- Read the module currently at index `i` (a TS object reference is
embedded as an index into `modules`). -/
def getModuleAt (i : Nat) : GenM TrialModule :=
  fun s => some (s.modules.getD i default, s)

/-- Mutate the module at index `i` in place. -/
def updateModuleAt (i : Nat) (f : TrialModule → TrialModule) : GenM Unit :=
  fun s => some ((), { s with modules := s.modules.set i (f (s.modules.getD i default)) })

def pushModule (m : TrialModule) : GenM Unit :=
  fun s => some ((), { s with modules := s.modules ++ [m] })

/-- `for (const _i of repeat(times)) { body }` where the body ignores the
index. -/
def iterateM : Nat → GenM Unit → GenM Unit
  | 0, _ => pure ()
  | k + 1, body => do
    body
    iterateM k body

/-- `for (const module of this.modules) { body(index) }`: the module list
never changes length during the generation passes, so iteration is by
index from `start` for `count` steps. -/
def forRange : Nat → Nat → (Nat → GenM Unit) → GenM Unit
  | _, 0, _ => pure ()
  | start, count + 1, f => do
    f start
    forRange (start + 1) count f

/-! ## The four generation passes of `Trial` -/

/-- A freshly seeded module: all lists empty. -/
def newModule (id : String) : TrialModule :=
  { id := id, originals := [], imports := [], sideEffects := [], exports := [] }

/-- `Trial.seedInitialModules`. -/
def seedInitialModules : GenM Unit := do
  let n ← randomInt 2 5
  iterateM n (do
    let id ← getInternalId
    pushModule (newModule id))

/-- One iteration of the inner loop of `Trial.addOriginalExports`: mint
`export_${getInternalId()}`, push it onto `originals` and (as an export
reference from this module) onto `exports`. -/
def addOneOriginal (i : Nat) : GenM Unit := do
  let iid ← getInternalId
  let nm := "export_" ++ iid
  updateModuleAt i (fun m =>
    { m with
      originals := m.originals ++ [nm]
      exports := m.exports ++ [{ importedFrom := m.id, name := nm }] })

/-- `Trial.addOriginalExports`. -/
def addOriginalExports : GenM Unit := do
  let ms ← getModules
  forRange 0 ms.length (fun i => do
    let k ← randomInt 1 5
    iterateM k (addOneOriginal i))

/-- `Trial.importIntoModule(exported, targetModule)`; the target module is
the one at index `i`. -/
def importIntoModule (exported : TrialExport) (i : Nat) : GenM String := do
  let m ← getModuleAt i
  match m.imports.find? (fun existing => existing.name == exported.name) with
  | some existing => pure existing.name
  | none =>
    if exported.name ∈ m.originals then
      pure exported.name
    else do
      let means ← pickM [Means.static, Means.dynamic]
      updateModuleAt i (fun m =>
        { m with
          imports := m.imports ++
            [{ importedFrom := exported.importedFrom, name := exported.name
               means := means }] })
      pure exported.name

/-- `Trial.pickRandomExport`. -/
def pickRandomExport : GenM TrialExport := do
  let ms ← getModules
  pickM (ms.flatMap (fun m => m.exports))

/-- One iteration of the inner loop of `Trial.addReExports`. -/
def addOneReExport (i : Nat) : GenM Unit := do
  let imp ← pickRandomExport
  let m ← getModuleAt i
  if imp.name ∈ m.originals then
    pure ()
  else do
    let nm ← importIntoModule imp i
    updateModuleAt i (fun m =>
      { m with exports := m.exports ++ [{ importedFrom := m.id, name := nm }] })

/-- `Trial.addReExports`. -/
def addReExports : GenM Unit := do
  let ms ← getModules
  forRange 0 ms.length (fun i => do
    let k ← randomInt 0 5
    iterateM k (addOneReExport i))

/-- One iteration of the inner loop of `Trial.addSideEffects`. -/
def addOneSideEffect (i : Nat) : GenM Unit := do
  let imp ← pickRandomExport
  let m ← getModuleAt i
  if imp.name ∈ m.originals then
    pure ()
  else do
    let nm ← importIntoModule imp i
    updateModuleAt i (fun m => { m with sideEffects := m.sideEffects ++ [nm] })

/-- `Trial.addSideEffects`. -/
def addSideEffects : GenM Unit := do
  let ms ← getModules
  forRange 0 ms.length (fun i => do
    let k ← randomInt 0 5
    iterateM k (addOneSideEffect i))

/-- The planning-phase pass sequence at the top of `Trial.run`. -/
def planPasses : GenM Unit := do
  seedInitialModules
  addOriginalExports
  addReExports
  addSideEffects

/-- Run the four generation passes from a fresh `Trial` on a given random
stream and return the resulting module set (`none` would mean an `unwrap`
throw during generation). -/
def genTrial (stream : Nat → Nat) : Option (List TrialModule) :=
  match planPasses { counter := 0, modules := [], stream := stream, pos := 0 } with
  | none => none
  | some (_, s) => some s.modules

/-- `Trial.chooseEntrypoints`.  `this.modules.sort(() => Math.random() - 0.5)`
shuffles in place with an inconsistent comparator; its outcome is some
permutation of the module list, so the shuffle is embedded as an explicit
`shuffled` argument (theorems hypothesize `shuffled ~ modules`). -/
def chooseEntrypoints (shuffled : List TrialModule) : GenM (List TrialModule) := do
  let n ← randomInt 1 (Nat.min 3 shuffled.length)
  pure (shuffled.take n)

/-! ## `Trial.analyzeSideEffects` (reachability with cycle protection)

The source recursion mutates a shared `traced` array and `effects` set;
both are threaded explicitly here as lists (`effects` is a JS `Set`:
insertion-ordered, duplicate-free, embedded via `addEffect`).  The
recursion is embedded with explicit fuel consumed once per nesting level;
`analyzeSideEffects` runs it with fuel `modules.length + 1`, and the
fuel-stability theorem for claim C1 shows any fuel of at least that bound
gives the same result, i.e. the source recursion terminates. -/

/-- `Set.add`: append if not already present. -/
def addEffect (effects : List String) (e : String) : List String :=
  if e ∈ effects then effects else effects ++ [e]

/-- The `for (const sideEffect of module.sideEffects)` loop: add each name
to the effect set, then recurse on it as if it were a module id.  The
recursive call is abstracted as `rec`. -/
def seLoop (rec : String → List String → List String → List String × List String) :
    List String → List String → List String → List String × List String
  | [], traced, effects => (traced, effects)
  | se :: rest, traced, effects =>
    let effects1 := addEffect effects se
    let st := rec se traced effects1
    seLoop rec rest st.1 st.2

/-- The `for (const imp of module.imports)` loop: recurse on each import's
owning module id. -/
def impLoop (rec : String → List String → List String → List String × List String) :
    List TaggedTrialExport → List String → List String → List String × List String
  | [], traced, effects => (traced, effects)
  | imp :: rest, traced, effects =>
    let st := rec imp.importedFrom traced effects
    impLoop rec rest st.1 st.2

/-- Fueled body of `Trial.analyzeSideEffects(id, traced, effects)`. -/
def analyzeAux (modules : List TrialModule) :
    Nat → String → List String → List String → List String × List String
  | 0, _, traced, effects => (traced, effects)
  | fuel + 1, id, traced, effects =>
    match modules.find? (fun m => m.id == id) with
    | none => (traced, effects)
    | some module =>
      if module.id ∈ traced then (traced, effects)
      else
        let traced1 := traced ++ [module.id]
        let st := seLoop (fun i t e => analyzeAux modules fuel i t e)
          module.sideEffects traced1 effects
        impLoop (fun i t e => analyzeAux modules fuel i t e)
          module.imports st.1 st.2

/-- `Trial.analyzeSideEffects(id)` as called from `Trial.run`: default
arguments `traced = []`, `effects = new Set()`, with enough fuel for the
deepest possible recursion (each nesting level past the first visit
traces a new module). -/
def analyzeSideEffects (modules : List TrialModule) (id : String) :
    List String × List String :=
  analyzeAux modules (modules.length + 1) id [] []

/-- `expectedEffects(entrypointId)`: the set the verification phase
compares against the trace log. -/
def expectedEffects (modules : List TrialModule) (id : String) : List String :=
  (analyzeSideEffects modules id).2

/-! ### Variant without the recursive call on side-effect names (claim C9) -/

/-- The side-effect loop with the recursive call on the side-effect name
removed: it only accumulates the names into the effect set. -/
def seLoopNR : List String → List String → List String
  | [], effects => effects
  | se :: rest, effects => seLoopNR rest (addEffect effects se)

/-- `analyzeAux` with the recursion into side-effect names removed. -/
def analyzeAuxNR (modules : List TrialModule) :
    Nat → String → List String → List String → List String × List String
  | 0, _, traced, effects => (traced, effects)
  | fuel + 1, id, traced, effects =>
    match modules.find? (fun m => m.id == id) with
    | none => (traced, effects)
    | some module =>
      if module.id ∈ traced then (traced, effects)
      else
        let traced1 := traced ++ [module.id]
        let effects1 := seLoopNR module.sideEffects effects
        impLoop (fun i t e => analyzeAuxNR modules fuel i t e)
          module.imports traced1 effects1

/-- `analyzeSideEffects` with the recursion into side-effect names
removed. -/
def analyzeSideEffectsNR (modules : List TrialModule) (id : String) :
    List String × List String :=
  analyzeAuxNR modules (modules.length + 1) id [] []

/-! ## `categorizeError` and the reproduction archive -/

/-- JS `String.prototype.includes`: contiguous substring test. -/
def containsSubstr (s pat : String) : Bool :=
  (List.range (s.data.length + 1)).any (fun i => pat.data.isPrefixOf (s.data.drop i))

/-- ASCII lower-casing of one character (the category substrings are
ASCII, so this captures `toLowerCase` on everything the classifier
compares). -/
def lowerChar (c : Char) : Char :=
  if 65 ≤ c.toNat ∧ c.toNat ≤ 90 then Char.ofNat (c.toNat + 32) else c

/-- `errorText.toLowerCase()` from `categorizeError`. -/
def toLowerStr (s : String) : String := String.mk (s.data.map lowerChar)

/-- The fixed category substrings of `categorizeError`, in source order. -/
def errorCategories : List String :=
  ["duplicate", "cannot find module", "is not a function", "expected side effect"]

/-- `categorizeError`: lower-case the error text and return the first
category substring it contains; `none` embeds the thrown
`Unknown error category` error. -/
def categorizeError (err : String) : Option String :=
  errorCategories.find? (fun category => containsSubstr (toLowerStr err) category)

/-- The reproduction-archive retention step from `Trial.run`: read the
currently stored document (`none` when the read throws because no
document exists), discard the new document if the stored one is strictly
shorter, otherwise write the new document. -/
def retainIfSmaller (current : Option String) (repro : String) : Option String :=
  match current with
  | some stored => if stored.length < repro.length then some stored else some repro
  | none => some repro

/-- The whole recording step of `Trial.run`'s catch block over an archive
mapping categories to stored documents: classify the error, then retain
the document under the resulting category; a classification failure
(`categorizeError` throws) aborts before any write. -/
def recordFailure (err : String) (repro : String)
    (archive : String → Option String) : Option (String → Option String) :=
  match categorizeError err with
  | none => none
  | some category =>
    some (fun c =>
      if c = category then retainIfSmaller (archive category) repro else archive c)


/-! ## Reachability lemmas: visited list growth, fuel stability, set-ness -/

theorem find?_id_eq {modules : List TrialModule} {id : String} {m : TrialModule}
    (h : modules.find? (fun m => m.id == id) = some m) : m.id = id := by
  have := List.find?_some h
  simpa using this

theorem find?_id_mem {modules : List TrialModule} {id : String} {m : TrialModule}
    (h : modules.find? (fun m => m.id == id) = some m) : m ∈ modules :=
  List.mem_of_find?_eq_some h

theorem analyzeAux_zero (modules : List TrialModule) (id : String)
    (t e : List String) : analyzeAux modules 0 id t e = (t, e) := rfl

theorem analyzeAux_succ_none {modules : List TrialModule} {id : String}
    (fuel : Nat) (t e : List String)
    (hfind : modules.find? (fun m => m.id == id) = none) :
    analyzeAux modules (fuel + 1) id t e = (t, e) := by
  simp only [analyzeAux, hfind]

theorem analyzeAux_succ_mem {modules : List TrialModule} {id : String}
    {m : TrialModule} (fuel : Nat) (t e : List String)
    (hfind : modules.find? (fun m => m.id == id) = some m) (hm : m.id ∈ t) :
    analyzeAux modules (fuel + 1) id t e = (t, e) := by
  simp only [analyzeAux, hfind, if_pos hm]

theorem analyzeAux_succ_new {modules : List TrialModule} {id : String}
    {m : TrialModule} (fuel : Nat) (t e : List String)
    (hfind : modules.find? (fun m => m.id == id) = some m) (hm : m.id ∉ t) :
    analyzeAux modules (fuel + 1) id t e
      = impLoop (fun i t' e' => analyzeAux modules fuel i t' e') m.imports
          (seLoop (fun i t' e' => analyzeAux modules fuel i t' e')
            m.sideEffects (t ++ [m.id]) e).1
          (seLoop (fun i t' e' => analyzeAux modules fuel i t' e')
            m.sideEffects (t ++ [m.id]) e).2 := by
  simp only [analyzeAux, hfind, if_neg hm]

theorem seLoop_subset
    (rec : String → List String → List String → List String × List String)
    (hrec : ∀ i t e, t ⊆ (rec i t e).1) :
    ∀ ses t e, t ⊆ (seLoop rec ses t e).1 := by
  intro ses
  induction ses with
  | nil => intro t e; exact fun x hx => hx
  | cons se rest ih =>
    intro t e
    exact List.Subset.trans (hrec se t (addEffect e se))
      (ih (rec se t (addEffect e se)).1 (rec se t (addEffect e se)).2)

theorem impLoop_subset
    (rec : String → List String → List String → List String × List String)
    (hrec : ∀ i t e, t ⊆ (rec i t e).1) :
    ∀ imps t e, t ⊆ (impLoop rec imps t e).1 := by
  intro imps
  induction imps with
  | nil => intro t e; exact fun x hx => hx
  | cons imp rest ih =>
    intro t e
    exact List.Subset.trans (hrec imp.importedFrom t e)
      (ih (rec imp.importedFrom t e).1 (rec imp.importedFrom t e).2)

theorem analyzeAux_subset (modules : List TrialModule) :
    ∀ fuel id t e, t ⊆ (analyzeAux modules fuel id t e).1 := by
  intro fuel
  induction fuel with
  | zero => intro id t e; exact fun x hx => hx
  | succ fuel ih =>
    intro id t e
    cases hfind : modules.find? (fun m => m.id == id) with
    | none => rw [analyzeAux_succ_none fuel t e hfind]; exact fun x hx => hx
    | some m =>
      by_cases hm : m.id ∈ t
      · rw [analyzeAux_succ_mem fuel t e hfind hm]; exact fun x hx => hx
      · rw [analyzeAux_succ_new fuel t e hfind hm]
        refine List.Subset.trans (List.subset_append_left t [m.id]) ?_
        refine List.Subset.trans
          (seLoop_subset _ (fun i t' e' => ih i t' e') m.sideEffects (t ++ [m.id]) e) ?_
        exact impLoop_subset _ (fun i t' e' => ih i t' e') m.imports _ _

/-- Generic: a pointwise weaker filter keeps at most as many elements. -/
theorem length_filter_le_of_imp {α : Type} {p q : α → Bool} :
    ∀ l : List α, (∀ a ∈ l, q a = true → p a = true) →
      (l.filter q).length ≤ (l.filter p).length := by
  intro l
  induction l with
  | nil => intro _; exact le_rfl
  | cons a rest ih =>
    intro h
    have hrest := ih (fun b hb => h b (List.mem_cons_of_mem a hb))
    simp only [List.filter_cons]
    cases hq : q a with
    | false =>
      cases hp : p a with
      | false => simpa using hrest
      | true =>
        simp only [if_pos, if_neg, Bool.false_eq_true, not_false_iff, List.length_cons]
        omega
    | true =>
      have hpa := h a (List.mem_cons_self a rest) hq
      rw [hpa]
      simp only [if_pos, List.length_cons]
      omega

/-- Generic: a strictly weaker filter (witnessed on a member) keeps
strictly fewer elements. -/
theorem length_filter_lt_of_imp {α : Type} {p q : α → Bool} {x : α} :
    ∀ l : List α, (∀ a ∈ l, q a = true → p a = true) →
      x ∈ l → p x = true → q x = false →
      (l.filter q).length < (l.filter p).length := by
  intro l
  induction l with
  | nil => intro _ hx; cases hx
  | cons a rest ih =>
    intro h hx hpx hqx
    have himp : ∀ b ∈ rest, q b = true → p b = true :=
      fun b hb => h b (List.mem_cons_of_mem a hb)
    have hle := length_filter_le_of_imp rest himp
    simp only [List.filter_cons]
    rcases List.mem_cons.mp hx with rfl | hmem
    · rw [hpx, hqx]
      simp only [Bool.false_eq_true, if_neg, not_false_iff, if_pos, List.length_cons]
      omega
    · have hlt := ih himp hmem hpx hqx
      cases hq : q a with
      | false =>
        cases hp : p a with
        | false => simpa using hlt
        | true =>
          simp only [if_pos, if_neg, Bool.false_eq_true, not_false_iff,
            List.length_cons]
          omega
      | true =>
        have hpa := h a (List.mem_cons_self a rest) hq
        rw [hpa]
        simp only [if_pos, List.length_cons]
        omega

/-- Number of modules whose id the traversal has not visited yet: the
decreasing measure of the source recursion. -/
def untraced (modules : List TrialModule) (traced : List String) : Nat :=
  (modules.filter (fun m => decide (m.id ∉ traced))).length

theorem untraced_le_length (modules : List TrialModule) (traced : List String) :
    untraced modules traced ≤ modules.length :=
  List.length_filter_le _ _

theorem untraced_mono (modules : List TrialModule) {t t' : List String}
    (h : t ⊆ t') : untraced modules t' ≤ untraced modules t := by
  apply length_filter_le_of_imp
  intro m _ hq
  simp only [decide_eq_true_eq] at hq ⊢
  exact fun hc => hq (h hc)

theorem untraced_strict (modules : List TrialModule) {t : List String}
    {m : TrialModule} (hm : m ∈ modules) (hid : m.id ∉ t) :
    untraced modules (t ++ [m.id]) < untraced modules t := by
  apply length_filter_lt_of_imp modules _ hm
  · simp only [decide_eq_true_eq]
    exact hid
  · simp
  · intro a _ hq
    simp only [decide_eq_true_eq] at hq ⊢
    exact fun hc => hq (List.mem_append_left _ hc)

theorem untraced_pos {modules : List TrialModule} {t : List String}
    {m : TrialModule} (hm : m ∈ modules) (hid : m.id ∉ t) :
    0 < untraced modules t := by
  have hmf : m ∈ modules.filter (fun m => decide (m.id ∉ t)) := by
    rw [List.mem_filter]
    exact ⟨hm, by simpa using hid⟩
  have := List.length_pos_of_mem hmf
  simpa [untraced] using this

theorem seLoop_congr
    (rec1 rec2 : String → List String → List String → List String × List String)
    (P : List String → Prop)
    (hmono : ∀ i t e, t ⊆ (rec1 i t e).1)
    (hup : ∀ t t', t ⊆ t' → P t → P t')
    (heq : ∀ i t e, P t → rec1 i t e = rec2 i t e) :
    ∀ ses t e, P t → seLoop rec1 ses t e = seLoop rec2 ses t e := by
  intro ses
  induction ses with
  | nil => intro t e _; rfl
  | cons se rest ih =>
    intro t e hP
    simp only [seLoop]
    rw [← heq se t (addEffect e se) hP]
    exact ih _ _ (hup t _ (hmono se t (addEffect e se)) hP)

theorem impLoop_congr
    (rec1 rec2 : String → List String → List String → List String × List String)
    (P : List String → Prop)
    (hmono : ∀ i t e, t ⊆ (rec1 i t e).1)
    (hup : ∀ t t', t ⊆ t' → P t → P t')
    (heq : ∀ i t e, P t → rec1 i t e = rec2 i t e) :
    ∀ imps t e, P t → impLoop rec1 imps t e = impLoop rec2 imps t e := by
  intro imps
  induction imps with
  | nil => intro t e _; rfl
  | cons imp rest ih =>
    intro t e hP
    simp only [impLoop]
    rw [← heq imp.importedFrom t e hP]
    exact ih _ _ (hup t _ (hmono imp.importedFrom t e) hP)

/-- Fuel stability: once the fuel exceeds the number of unvisited modules,
adding more fuel cannot change the result — the source recursion
terminates with exactly this value. -/
theorem analyzeAux_stable (modules : List TrialModule) :
    ∀ k f1 f2 id t e, untraced modules t ≤ k → k < f1 → k < f2 →
      analyzeAux modules f1 id t e = analyzeAux modules f2 id t e := by
  intro k
  induction k with
  | zero =>
    intro f1 f2 id t e hu h1 h2
    obtain ⟨a, rfl⟩ : ∃ a, f1 = a + 1 := ⟨f1 - 1, by omega⟩
    obtain ⟨b, rfl⟩ : ∃ b, f2 = b + 1 := ⟨f2 - 1, by omega⟩
    cases hfind : modules.find? (fun m => m.id == id) with
    | none => rw [analyzeAux_succ_none a t e hfind, analyzeAux_succ_none b t e hfind]
    | some m =>
      by_cases hm : m.id ∈ t
      · rw [analyzeAux_succ_mem a t e hfind hm, analyzeAux_succ_mem b t e hfind hm]
      · exact absurd (untraced_pos (find?_id_mem hfind) hm) (by omega)
  | succ k ih =>
    intro f1 f2 id t e hu h1 h2
    obtain ⟨a, rfl⟩ : ∃ a, f1 = a + 1 := ⟨f1 - 1, by omega⟩
    obtain ⟨b, rfl⟩ : ∃ b, f2 = b + 1 := ⟨f2 - 1, by omega⟩
    cases hfind : modules.find? (fun m => m.id == id) with
    | none => rw [analyzeAux_succ_none a t e hfind, analyzeAux_succ_none b t e hfind]
    | some m =>
      by_cases hm : m.id ∈ t
      · rw [analyzeAux_succ_mem a t e hfind hm, analyzeAux_succ_mem b t e hfind hm]
      · rw [analyzeAux_succ_new a t e hfind hm, analyzeAux_succ_new b t e hfind hm]
        have hmem := find?_id_mem hfind
        have hstrict := untraced_strict modules hmem hm
        have hu1 : untraced modules (t ++ [m.id]) ≤ k := by omega
        have heq : ∀ i t' e', t ++ [m.id] ⊆ t' →
            analyzeAux modules a i t' e' = analyzeAux modules b i t' e' := by
          intro i t' e' hsub
          exact ih a b i t' e'
            (le_trans (untraced_mono modules hsub) hu1) (by omega) (by omega)
        have hseq : seLoop (fun i t' e' => analyzeAux modules a i t' e')
            m.sideEffects (t ++ [m.id]) e
            = seLoop (fun i t' e' => analyzeAux modules b i t' e')
              m.sideEffects (t ++ [m.id]) e :=
          seLoop_congr _ _ (fun t' => t ++ [m.id] ⊆ t')
            (fun i t' e' => analyzeAux_subset modules a i t' e')
            (fun t' t'' hsub hP => List.Subset.trans hP hsub)
            heq m.sideEffects _ e (fun x hx => hx)
        rw [← hseq]
        exact impLoop_congr _ _ (fun t' => t ++ [m.id] ⊆ t')
          (fun i t' e' => analyzeAux_subset modules a i t' e')
          (fun t' t'' hsub hP => List.Subset.trans hP hsub)
          heq m.imports _ _
          (seLoop_subset _ (fun i t' e' => analyzeAux_subset modules a i t' e')
            m.sideEffects (t ++ [m.id]) e)

theorem addEffect_nodup {effects : List String} (se : String)
    (h : effects.Nodup) : (addEffect effects se).Nodup := by
  unfold addEffect
  by_cases hmem : se ∈ effects
  · rwa [if_pos hmem]
  · rw [if_neg hmem]
    simp [List.nodup_append, h, hmem]

theorem seLoop_nodup
    (rec : String → List String → List String → List String × List String)
    (hrec : ∀ i t e, e.Nodup → (rec i t e).2.Nodup) :
    ∀ ses t e, e.Nodup → (seLoop rec ses t e).2.Nodup := by
  intro ses
  induction ses with
  | nil => intro t e h; exact h
  | cons se rest ih =>
    intro t e h
    exact ih _ _ (hrec se t (addEffect e se) (addEffect_nodup se h))

theorem impLoop_nodup
    (rec : String → List String → List String → List String × List String)
    (hrec : ∀ i t e, e.Nodup → (rec i t e).2.Nodup) :
    ∀ imps t e, e.Nodup → (impLoop rec imps t e).2.Nodup := by
  intro imps
  induction imps with
  | nil => intro t e h; exact h
  | cons imp rest ih =>
    intro t e h
    exact ih _ _ (hrec imp.importedFrom t e h)

theorem analyzeAux_nodup (modules : List TrialModule) :
    ∀ fuel id t e, e.Nodup → (analyzeAux modules fuel id t e).2.Nodup := by
  intro fuel
  induction fuel with
  | zero => intro id t e h; exact h
  | succ fuel ih =>
    intro id t e h
    cases hfind : modules.find? (fun m => m.id == id) with
    | none => rw [analyzeAux_succ_none fuel t e hfind]; exact h
    | some m =>
      by_cases hm : m.id ∈ t
      · rw [analyzeAux_succ_mem fuel t e hfind hm]; exact h
      · rw [analyzeAux_succ_new fuel t e hfind hm]
        exact impLoop_nodup _ (fun i t' e' => ih i t' e') m.imports _ _
          (seLoop_nodup _ (fun i t' e' => ih i t' e') m.sideEffects _ e h)

/-- An id already in the visited list is not re-entered: the call returns
both accumulators unchanged, whatever the fuel. -/
theorem analyzeAux_mem_traced (modules : List TrialModule) (id : String)
    {t : List String} (e : List String) (hmem : id ∈ t) :
    ∀ fuel, analyzeAux modules fuel id t e = (t, e) := by
  intro fuel
  cases fuel with
  | zero => rfl
  | succ fuel =>
    cases hfind : modules.find? (fun m => m.id == id) with
    | none => exact analyzeAux_succ_none fuel t e hfind
    | some m =>
      exact analyzeAux_succ_mem fuel t e hfind ((find?_id_eq hfind) ▸ hmem)

/-- A name that matches no module id contributes nothing: the recursion
returns both accumulators unchanged, whatever the fuel. -/
theorem analyzeAux_no_module (modules : List TrialModule) (id : String)
    (h : ∀ m ∈ modules, m.id ≠ id) :
    ∀ fuel t e, analyzeAux modules fuel id t e = (t, e) := by
  intro fuel t e
  cases fuel with
  | zero => rfl
  | succ fuel =>
    have hfind : modules.find? (fun m => m.id == id) = none := by
      rw [List.find?_eq_none]
      intro m hm
      simpa using h m hm
    exact analyzeAux_succ_none fuel t e hfind

theorem seLoop_eq_NR
    (rec : String → List String → List String → List String × List String)
    (ses : List String)
    (h : ∀ se ∈ ses, ∀ t e, rec se t e = (t, e)) :
    ∀ t e, seLoop rec ses t e = (t, seLoopNR ses e) := by
  induction ses with
  | nil => intro t e; rfl
  | cons se rest ih =>
    intro t e
    simp only [seLoop, seLoopNR, h se (List.mem_cons_self se rest)]
    exact ih (fun se' hse' => h se' (List.mem_cons_of_mem se hse')) t _

theorem impLoop_congr_simple
    (rec1 rec2 : String → List String → List String → List String × List String)
    (h : ∀ i t e, rec1 i t e = rec2 i t e) :
    ∀ imps t e, impLoop rec1 imps t e = impLoop rec2 imps t e := by
  intro imps
  induction imps with
  | nil => intro t e; rfl
  | cons imp rest ih =>
    intro t e
    simp only [impLoop, h imp.importedFrom t e]
    exact ih _ _

theorem analyzeAuxNR_succ_new {modules : List TrialModule} {id : String}
    {m : TrialModule} (fuel : Nat) (t e : List String)
    (hfind : modules.find? (fun m => m.id == id) = some m) (hm : m.id ∉ t) :
    analyzeAuxNR modules (fuel + 1) id t e
      = impLoop (fun i t' e' => analyzeAuxNR modules fuel i t' e') m.imports
          (t ++ [m.id]) (seLoopNR m.sideEffects e) := by
  simp only [analyzeAuxNR, hfind, if_neg hm]

/-- If no side-effect name in the graph collides with a module id, the
recursive call on side-effect names is dead code: the analyzer and its
recursion-free variant agree everywhere. -/
theorem analyzeAux_eq_NR (modules : List TrialModule)
    (hdisj : ∀ m ∈ modules, ∀ m' ∈ modules, ∀ se ∈ m'.sideEffects, m.id ≠ se) :
    ∀ fuel id t e, analyzeAux modules fuel id t e = analyzeAuxNR modules fuel id t e := by
  intro fuel
  induction fuel with
  | zero => intro id t e; rfl
  | succ fuel ih =>
    intro id t e
    cases hfind : modules.find? (fun m => m.id == id) with
    | none =>
      rw [analyzeAux_succ_none fuel t e hfind]
      simp only [analyzeAuxNR, hfind]
    | some m =>
      by_cases hm : m.id ∈ t
      · rw [analyzeAux_succ_mem fuel t e hfind hm]
        simp only [analyzeAuxNR, hfind, if_pos hm]
      · rw [analyzeAux_succ_new fuel t e hfind hm,
          analyzeAuxNR_succ_new fuel t e hfind hm]
        have hmem := find?_id_mem hfind
        have hse : ∀ se ∈ m.sideEffects, ∀ t' e',
            analyzeAux modules fuel se t' e' = (t', e') := by
          intro se hse t' e'
          exact analyzeAux_no_module modules se
            (fun m' hm' => hdisj m' hm' m hmem se hse) fuel t' e'
        rw [seLoop_eq_NR _ m.sideEffects hse (t ++ [m.id]) e]
        exact impLoop_congr_simple _ _ (fun i t' e' => ih i t' e') m.imports _ _

/-! ## Evaluation lemmas for the generator primitives -/

theorem randomInt_eq (a b : Nat) (s : GenState) :
    randomInt a b s
      = some (a + s.stream s.pos % (b - a + 1), { s with pos := s.pos + 1 }) := rfl

theorem getInternalId_eq (s : GenState) :
    getInternalId s = some (idOf s.counter, { s with counter := s.counter + 1 }) := rfl

theorem getModules_eq (s : GenState) : getModules s = some (s.modules, s) := rfl

theorem getModuleAt_eq (i : Nat) (s : GenState) :
    getModuleAt i s = some (s.modules.getD i default, s) := rfl

theorem updateModuleAt_eq (i : Nat) (f : TrialModule → TrialModule) (s : GenState) :
    updateModuleAt i f s
      = some ((), { s with modules := s.modules.set i (f (s.modules.getD i default)) }) := rfl

theorem pushModule_eq (m : TrialModule) (s : GenState) :
    pushModule m s = some ((), { s with modules := s.modules ++ [m] }) := rfl

theorem pickM_nil {α : Type} (s : GenState) : pickM ([] : List α) s = none := by
  simp only [pickM, GenM.bind_def, randomInt_eq]
  rfl

theorem pickM_eq_some {α : Type} (items : List α) (s : GenState)
    (hne : items ≠ []) :
    ∃ x ∈ items, pickM items s = some (x, { s with pos := s.pos + 1 }) := by
  have hlen : 0 < items.length := List.length_pos.mpr hne
  have hidx : 0 + s.stream s.pos % (items.length - 1 - 0 + 1) < items.length := by
    have h1 : items.length - 1 - 0 + 1 = items.length := by omega
    rw [h1]
    have := Nat.mod_lt (s.stream s.pos) hlen
    omega
  refine ⟨items.get ⟨_, hidx⟩, List.get_mem items _ _, ?_⟩
  simp only [pickM, GenM.bind_def, randomInt_eq]
  rw [List.get?_eq_get hidx]
  rfl

/-! ## Invariant combinators for the iteration helpers -/

theorem iterateM_inv (P : GenState → Prop) (body : GenM Unit)
    (h : ∀ s, P s → ∃ s', body s = some ((), s') ∧ P s') :
    ∀ k s, P s → ∃ s', iterateM k body s = some ((), s') ∧ P s' := by
  intro k
  induction k with
  | zero => intro s hP; exact ⟨s, rfl, hP⟩
  | succ k ih =>
    intro s hP
    obtain ⟨s1, hs1, hP1⟩ := h s hP
    obtain ⟨s2, hs2, hP2⟩ := ih s1 hP1
    refine ⟨s2, ?_, hP2⟩
    simp only [iterateM, GenM.bind_def, hs1]
    exact hs2

/-- Like `iterateM_inv`, but for at least one iteration of a body that
also establishes `Q` each time it runs. -/
theorem iterateM_inv_estab (P Q : GenState → Prop) (body : GenM Unit)
    (h : ∀ s, P s → ∃ s', body s = some ((), s') ∧ P s' ∧ Q s') :
    ∀ k s, P s → ∃ s', iterateM (k + 1) body s = some ((), s') ∧ P s' ∧ Q s' := by
  intro k
  induction k with
  | zero =>
    intro s hP
    obtain ⟨s1, hs1, hP1, hQ1⟩ := h s hP
    refine ⟨s1, ?_, hP1, hQ1⟩
    simp only [iterateM, GenM.bind_def, hs1]
    rfl
  | succ k ih =>
    intro s hP
    obtain ⟨s1, hs1, hP1, _⟩ := h s hP
    obtain ⟨s2, hs2, hP2, hQ2⟩ := ih s1 hP1
    refine ⟨s2, ?_, hP2, hQ2⟩
    simp only [iterateM, GenM.bind_def, hs1]
    exact hs2

theorem forRange_inv_idx (P : Nat → GenState → Prop) (f : Nat → GenM Unit)
    (h : ∀ i s, P i s → ∃ s', f i s = some ((), s') ∧ P (i + 1) s') :
    ∀ count start s, P start s →
      ∃ s', forRange start count f s = some ((), s') ∧ P (start + count) s' := by
  intro count
  induction count with
  | zero => intro start s hP; exact ⟨s, rfl, by simpa using hP⟩
  | succ count ih =>
    intro start s hP
    obtain ⟨s1, hs1, hP1⟩ := h start s hP
    obtain ⟨s2, hs2, hP2⟩ := ih (start + 1) s1 hP1
    refine ⟨s2, ?_, by rwa [show start + 1 + count = start + (count + 1) by omega] at hP2⟩
    simp only [forRange, GenM.bind_def, hs1]
    exact hs2

theorem forRange_inv (P : GenState → Prop) (f : Nat → GenM Unit)
    (h : ∀ i s, P s → ∃ s', f i s = some ((), s') ∧ P s') :
    ∀ count start s, P s →
      ∃ s', forRange start count f s = some ((), s') ∧ P s' := by
  intro count start s hP
  obtain ⟨s', hrun, hP'⟩ := forRange_inv_idx (fun _ s => P s) f
    (fun i s hs => h i s hs) count start s hP
  exact ⟨s', hrun, hP'⟩

/-! ## List helpers for in-place module updates -/

theorem list_set_decomp {α : Type} [Inhabited α] :
    ∀ (l : List α) (i : Nat), i < l.length →
      ∃ pre post, l = pre ++ l.getD i default :: post
        ∧ (∀ x : α, l.set i x = pre ++ x :: post)
        ∧ pre.length = i := by
  intro l
  induction l with
  | nil => intro i h; simp at h
  | cons a rest ih =>
    intro i h
    cases i with
    | zero => exact ⟨[], rest, by simp, fun x => by simp, rfl⟩
    | succ i =>
      obtain ⟨pre, post, hdec, hset, hlen⟩ := ih i (by simpa using h)
      refine ⟨a :: pre, post, ?_, ?_, by simpa using hlen⟩
      · simpa [List.getD, List.get?] using congrArg (a :: ·) hdec
      · intro x
        simp only [List.set, List.cons_append]
        exact congrArg (a :: ·) (hset x)

theorem getD_set_lt {α : Type} [Inhabited α] (l : List α) (i j : Nat) (x : α)
    (hij : j < i) : (l.set i x).getD j default = l.getD j default := by
  by_cases hi : i < l.length
  · obtain ⟨pre, post, hdec, hset, hlen⟩ := list_set_decomp l i hi
    rw [hset x]
    conv_rhs => rw [hdec]
    rw [List.getD_append _ _ _ _ (by omega), List.getD_append _ _ _ _ (by omega)]
  · rw [List.set_eq_of_length_le (by omega)]

theorem getD_set_self {α : Type} [Inhabited α] (l : List α) (i : Nat) (x : α)
    (hi : i < l.length) : (l.set i x).getD i default = x := by
  obtain ⟨pre, post, hdec, hset, hlen⟩ := list_set_decomp l i hi
  rw [hset x, List.getD_append_right _ _ _ _ (by omega)]
  simp [hlen]

theorem mem_getD_of_lt {α : Type} [Inhabited α] (l : List α) (j : Nat)
    (hj : j < l.length) : l.getD j default ∈ l := by
  rw [List.getD_eq_getElem?_getD, List.getElem?_eq_getElem hj]
  exact List.getElem_mem _

theorem exists_getD_of_mem {α : Type} [Inhabited α] {l : List α} {a : α}
    (h : a ∈ l) : ∃ j, j < l.length ∧ l.getD j default = a := by
  obtain ⟨n, hget⟩ := List.mem_iff_get.mp h
  refine ⟨n.1, n.2, ?_⟩
  rw [List.getD_eq_getElem?_getD, List.getElem?_eq_getElem n.2]
  simpa using hget

/-! ## Generated-trial well-formedness invariants -/

/-- All original-export names across the trial's modules, in order. -/
def allOriginals (ms : List TrialModule) : List String :=
  ms.flatMap (fun m => m.originals)

/-- All export entries across the trial's modules (the candidate list of
`pickRandomExport`). -/
def allExports (ms : List TrialModule) : List TrialExport :=
  ms.flatMap (fun m => m.exports)

theorem flatMap_set_decomp {β : Type} (g : TrialModule → List β)
    {l : List TrialModule} {i : Nat} (h : i < l.length) (x : TrialModule) :
    ∃ A B, l.flatMap g = A ++ g (l.getD i default) ++ B
      ∧ (l.set i x).flatMap g = A ++ g x ++ B := by
  obtain ⟨pre, post, hdec, hset, hlen⟩ := list_set_decomp l i h
  refine ⟨pre.flatMap g, post.flatMap g, ?_, ?_⟩
  · conv_lhs => rw [hdec]
    simp [List.flatMap_append, List.flatMap_cons, List.append_assoc]
  · rw [hset x]
    simp [List.flatMap_append, List.flatMap_cons, List.append_assoc]

theorem map_set_decomp {β : Type} (g : TrialModule → β)
    {l : List TrialModule} {i : Nat} (h : i < l.length) (x : TrialModule) :
    ∃ A B, l.map g = A ++ g (l.getD i default) :: B
      ∧ (l.set i x).map g = A ++ g x :: B := by
  obtain ⟨pre, post, hdec, hset, hlen⟩ := list_set_decomp l i h
  refine ⟨pre.map g, post.map g, ?_, ?_⟩
  · conv_lhs => rw [hdec]
    simp
  · rw [hset x]
    simp

theorem mem_set_decomp {l : List TrialModule} {i : Nat} (h : i < l.length)
    (x : TrialModule) {m : TrialModule} (hm : m ∈ l.set i x) :
    m = x ∨ m ∈ l := by
  obtain ⟨pre, post, hdec, hset, hlen⟩ := list_set_decomp l i h
  rw [hset x] at hm
  rw [List.mem_append, List.mem_cons] at hm
  rcases hm with hm | hm | hm
  · exact Or.inr (by rw [hdec]; exact List.mem_append_left _ hm)
  · exact Or.inl hm
  · exact Or.inr (by rw [hdec]; exact List.mem_append_right _ (List.mem_cons_of_mem _ hm))

/-- Invariant of the trial's module set from the end of
`addOriginalExports` onwards, relative to the current value of
`internalIdIncrementor`.  It packages the claims' structural properties:
unique counter-derived module ids, globally unique counter-derived
original-export names, nonempty per-module export lists, and the facts
that every export entry name, every import binding name, and every
side-effect name refers to some module's original. -/
structure WfModules (c : Nat) (ms : List TrialModule) : Prop where
  ne : ms ≠ []
  ids : ∀ m ∈ ms, ∃ k, k < c ∧ m.id = idOf k
  idsNodup : (ms.map (fun m => m.id)).Nodup
  orig : ∀ nm ∈ allOriginals ms, ∃ k, k < c ∧ nm = nameOf k
  origNodup : (allOriginals ms).Nodup
  expNE : ∀ m ∈ ms, m.exports ≠ []
  expNames : ∀ m ∈ ms, ∀ e ∈ m.exports, e.name ∈ allOriginals ms
  impNotOrig : ∀ m ∈ ms, ∀ b ∈ m.imports, b.name ∉ m.originals
  impNodup : ∀ m ∈ ms, (m.imports.map (fun b => b.name)).Nodup
  seNames : ∀ m ∈ ms, ∀ se ∈ m.sideEffects, se ∈ allOriginals ms

/-- State-level view of `WfModules`. -/
def Wf (s : GenState) : Prop := WfModules s.counter s.modules

theorem WfModules.mono {c c' : Nat} {ms : List TrialModule}
    (h : WfModules c ms) (hc : c ≤ c') : WfModules c' ms where
  ne := h.ne
  ids := fun m hm => by obtain ⟨k, hk, hid⟩ := h.ids m hm; exact ⟨k, by omega, hid⟩
  idsNodup := h.idsNodup
  orig := fun nm hnm => by obtain ⟨k, hk, hn⟩ := h.orig nm hnm; exact ⟨k, by omega, hn⟩
  origNodup := h.origNodup
  expNE := h.expNE
  expNames := h.expNames
  impNotOrig := h.impNotOrig
  impNodup := h.impNodup
  seNames := h.seNames

theorem set_ne_nil {l : List TrialModule} (h : l ≠ []) (i : Nat)
    (x : TrialModule) : l.set i x ≠ [] := by
  intro hc
  apply h
  have := congrArg List.length hc
  rw [List.length_set] at this
  exact List.length_eq_zero.mp this

theorem wfModules_push_import {c : Nat} {ms : List TrialModule}
    (h : WfModules c ms) {i : Nat} (hi : i < ms.length) (b : TaggedTrialExport)
    (hbn : b.name ∈ allOriginals ms)
    (hbo : b.name ∉ (ms.getD i default).originals)
    (hbi : b.name ∉ (ms.getD i default).imports.map (fun x => x.name)) :
    WfModules c (ms.set i
      { ms.getD i default with
        imports := (ms.getD i default).imports ++ [b] }) := by
  set mi := ms.getD i default with hmidef
  set x : TrialModule := { mi with imports := mi.imports ++ [b] } with hxdef
  have hmi : mi ∈ ms := mem_getD_of_lt ms i hi
  have hAO : allOriginals (ms.set i x) = allOriginals ms := by
    obtain ⟨A, B, h1, h2⟩ := flatMap_set_decomp (fun m => m.originals) hi x
    exact h2.trans h1.symm
  have hIDs : (ms.set i x).map (fun m => m.id) = ms.map (fun m => m.id) := by
    obtain ⟨A, B, h1, h2⟩ := map_set_decomp (fun m => m.id) hi x
    exact h2.trans h1.symm
  refine ⟨set_ne_nil h.ne i x, ?_, ?_, ?_, ?_, ?_, ?_, ?_, ?_, ?_⟩
  · intro m hm
    rcases mem_set_decomp hi x hm with rfl | hm
    · obtain ⟨k, hk, hid⟩ := h.ids mi hmi
      exact ⟨k, hk, hid⟩
    · exact h.ids m hm
  · rw [hIDs]; exact h.idsNodup
  · rw [hAO]; exact h.orig
  · rw [hAO]; exact h.origNodup
  · intro m hm
    rcases mem_set_decomp hi x hm with rfl | hm
    · exact h.expNE mi hmi
    · exact h.expNE m hm
  · intro m hm e he
    rw [hAO]
    rcases mem_set_decomp hi x hm with rfl | hm
    · exact h.expNames mi hmi e he
    · exact h.expNames m hm e he
  · intro m hm b' hb'
    rcases mem_set_decomp hi x hm with rfl | hm
    · rcases List.mem_append.mp hb' with hb' | hb'
      · exact h.impNotOrig mi hmi b' hb'
      · rcases List.mem_singleton.mp hb' with rfl
        exact hbo
    · exact h.impNotOrig m hm b' hb'
  · intro m hm
    rcases mem_set_decomp hi x hm with rfl | hm
    · show ((mi.imports ++ [b]).map (fun b => b.name)).Nodup
      rw [List.map_append]
      rw [List.nodup_append]
      refine ⟨h.impNodup mi hmi, List.nodup_singleton _, ?_⟩
      intro y hy hy2
      rcases List.mem_singleton.mp hy2 with rfl
      exact hbi hy
    · exact h.impNodup m hm
  · intro m hm se hse
    rw [hAO]
    rcases mem_set_decomp hi x hm with rfl | hm
    · exact h.seNames mi hmi se hse
    · exact h.seNames m hm se hse

theorem wfModules_push_export {c : Nat} {ms : List TrialModule}
    (h : WfModules c ms) {i : Nat} (hi : i < ms.length) (nm : String)
    (hnm : nm ∈ allOriginals ms) :
    WfModules c (ms.set i
      { ms.getD i default with
        exports := (ms.getD i default).exports
          ++ [{ importedFrom := (ms.getD i default).id, name := nm }] }) := by
  set mi := ms.getD i default with hmidef
  set x : TrialModule :=
    { mi with exports := mi.exports ++ [{ importedFrom := mi.id, name := nm }] } with hxdef
  have hmi : mi ∈ ms := mem_getD_of_lt ms i hi
  have hAO : allOriginals (ms.set i x) = allOriginals ms := by
    obtain ⟨A, B, h1, h2⟩ := flatMap_set_decomp (fun m => m.originals) hi x
    exact h2.trans h1.symm
  have hIDs : (ms.set i x).map (fun m => m.id) = ms.map (fun m => m.id) := by
    obtain ⟨A, B, h1, h2⟩ := map_set_decomp (fun m => m.id) hi x
    exact h2.trans h1.symm
  refine ⟨set_ne_nil h.ne i x, ?_, ?_, ?_, ?_, ?_, ?_, ?_, ?_, ?_⟩
  · intro m hm
    rcases mem_set_decomp hi x hm with rfl | hm
    · exact h.ids mi hmi
    · exact h.ids m hm
  · rw [hIDs]; exact h.idsNodup
  · rw [hAO]; exact h.orig
  · rw [hAO]; exact h.origNodup
  · intro m hm
    rcases mem_set_decomp hi x hm with rfl | hm
    · show mi.exports ++ [({ importedFrom := mi.id, name := nm } : TrialExport)] ≠ []
      simp
    · exact h.expNE m hm
  · intro m hm e he
    rw [hAO]
    rcases mem_set_decomp hi x hm with rfl | hm
    · rcases List.mem_append.mp he with he | he
      · exact h.expNames mi hmi e he
      · rcases List.mem_singleton.mp he with rfl
        exact hnm
    · exact h.expNames m hm e he
  · intro m hm b' hb'
    rcases mem_set_decomp hi x hm with rfl | hm
    · exact h.impNotOrig mi hmi b' hb'
    · exact h.impNotOrig m hm b' hb'
  · intro m hm
    rcases mem_set_decomp hi x hm with rfl | hm
    · exact h.impNodup mi hmi
    · exact h.impNodup m hm
  · intro m hm se hse
    rw [hAO]
    rcases mem_set_decomp hi x hm with rfl | hm
    · exact h.seNames mi hmi se hse
    · exact h.seNames m hm se hse

theorem wfModules_push_se {c : Nat} {ms : List TrialModule}
    (h : WfModules c ms) {i : Nat} (hi : i < ms.length) (nm : String)
    (hnm : nm ∈ allOriginals ms) :
    WfModules c (ms.set i
      { ms.getD i default with
        sideEffects := (ms.getD i default).sideEffects ++ [nm] }) := by
  set mi := ms.getD i default with hmidef
  set x : TrialModule := { mi with sideEffects := mi.sideEffects ++ [nm] } with hxdef
  have hmi : mi ∈ ms := mem_getD_of_lt ms i hi
  have hAO : allOriginals (ms.set i x) = allOriginals ms := by
    obtain ⟨A, B, h1, h2⟩ := flatMap_set_decomp (fun m => m.originals) hi x
    exact h2.trans h1.symm
  have hIDs : (ms.set i x).map (fun m => m.id) = ms.map (fun m => m.id) := by
    obtain ⟨A, B, h1, h2⟩ := map_set_decomp (fun m => m.id) hi x
    exact h2.trans h1.symm
  refine ⟨set_ne_nil h.ne i x, ?_, ?_, ?_, ?_, ?_, ?_, ?_, ?_, ?_⟩
  · intro m hm
    rcases mem_set_decomp hi x hm with rfl | hm
    · exact h.ids mi hmi
    · exact h.ids m hm
  · rw [hIDs]; exact h.idsNodup
  · rw [hAO]; exact h.orig
  · rw [hAO]; exact h.origNodup
  · intro m hm
    rcases mem_set_decomp hi x hm with rfl | hm
    · exact h.expNE mi hmi
    · exact h.expNE m hm
  · intro m hm e he
    rw [hAO]
    rcases mem_set_decomp hi x hm with rfl | hm
    · exact h.expNames mi hmi e he
    · exact h.expNames m hm e he
  · intro m hm b' hb'
    rcases mem_set_decomp hi x hm with rfl | hm
    · exact h.impNotOrig mi hmi b' hb'
    · exact h.impNotOrig m hm b' hb'
  · intro m hm
    rcases mem_set_decomp hi x hm with rfl | hm
    · exact h.impNodup mi hmi
    · exact h.impNodup m hm
  · intro m hm se hse
    rw [hAO]
    rcases mem_set_decomp hi x hm with rfl | hm
    · rcases List.mem_append.mp hse with hse | hse
      · exact h.seNames mi hmi se hse
      · rcases List.mem_singleton.mp hse with rfl
        exact hnm
    · exact h.seNames m hm se hse

theorem forRange_inv_bounded (P : Nat → GenState → Prop) (f : Nat → GenM Unit) :
    ∀ count start : Nat,
      (∀ i s, start ≤ i → i < start + count → P i s →
        ∃ s', f i s = some ((), s') ∧ P (i + 1) s') →
      ∀ s, P start s →
        ∃ s', forRange start count f s = some ((), s') ∧ P (start + count) s' := by
  intro count
  induction count with
  | zero => intro start _ s hP; exact ⟨s, rfl, by simpa using hP⟩
  | succ count ih =>
    intro start h s hP
    obtain ⟨s1, hs1, hP1⟩ := h start s le_rfl (by omega) hP
    obtain ⟨s2, hs2, hP2⟩ :=
      ih (start + 1) (fun i si hle hlt hPi => h i si (by omega) (by omega) hPi) s1 hP1
    refine ⟨s2, ?_, by rwa [show start + 1 + count = start + (count + 1) by omega] at hP2⟩
    simp only [forRange, GenM.bind_def, hs1]
    exact hs2

/-! ## `importIntoModule` and the re-export / side-effect passes -/

theorem importIntoModule_spec (ex : TrialExport) (i : Nat) (s : GenState)
    (hwf : Wf s) (hi : i < s.modules.length)
    (hname : ex.name ∈ allOriginals s.modules) :
    ∃ s', importIntoModule ex i s = some (ex.name, s') ∧ Wf s' ∧
      s'.counter = s.counter ∧ s'.modules.length = s.modules.length ∧
      allOriginals s'.modules = allOriginals s.modules := by
  cases hfind : (s.modules.getD i default).imports.find?
      (fun existing => existing.name == ex.name) with
  | some b =>
    have hbname : b.name = ex.name := by simpa using List.find?_some hfind
    refine ⟨s, ?_, hwf, rfl, rfl, rfl⟩
    simp only [importIntoModule, GenM.bind_def, getModuleAt_eq, hfind]
    rw [hbname]
    rfl
  | none =>
    by_cases horig : ex.name ∈ (s.modules.getD i default).originals
    · refine ⟨s, ?_, hwf, rfl, rfl, rfl⟩
      simp only [importIntoModule, GenM.bind_def, getModuleAt_eq, hfind, if_pos horig]
      rfl
    · obtain ⟨mn, hmn, hpick⟩ := pickM_eq_some [Means.static, Means.dynamic] s
        (by simp)
      have hbi : ex.name ∉ (s.modules.getD i default).imports.map
          (fun x => x.name) := by
        intro hmem
        obtain ⟨b', hb', hbn'⟩ := List.mem_map.mp hmem
        have := List.find?_eq_none.mp hfind b' hb'
        simp [hbn'] at this
      refine ⟨{ s with
          pos := s.pos + 1
          modules := s.modules.set i
            { s.modules.getD i default with
              imports := (s.modules.getD i default).imports
                ++ [{ importedFrom := ex.importedFrom, name := ex.name
                      means := mn }] } }, ?_, ?_, rfl, ?_, ?_⟩
      · simp only [importIntoModule, GenM.bind_def, getModuleAt_eq, hfind,
          if_neg horig, hpick, updateModuleAt_eq]
        rfl
      · exact wfModules_push_import hwf hi _ hname horig hbi
      · simp [List.length_set]
      · obtain ⟨A, B, h1, h2⟩ := flatMap_set_decomp (fun m => m.originals) hi
          { s.modules.getD i default with
            imports := (s.modules.getD i default).imports
              ++ [{ importedFrom := ex.importedFrom, name := ex.name, means := mn }] }
        exact h2.trans h1.symm

theorem allExports_ne_nil {c : Nat} {ms : List TrialModule}
    (h : WfModules c ms) : ms.flatMap (fun m => m.exports) ≠ [] := by
  obtain ⟨m0, hm0⟩ := List.exists_mem_of_ne_nil ms h.ne
  obtain ⟨e0, he0⟩ := List.exists_mem_of_ne_nil m0.exports (h.expNE m0 hm0)
  exact List.ne_nil_of_mem (List.mem_flatMap.mpr ⟨m0, hm0, he0⟩)

theorem pickRandomExport_spec (s : GenState) (hwf : Wf s) :
    ∃ ex, ex.name ∈ allOriginals s.modules ∧
      pickRandomExport s = some (ex, { s with pos := s.pos + 1 }) := by
  obtain ⟨ex, hmem, hpick⟩ :=
    pickM_eq_some (s.modules.flatMap (fun m => m.exports)) s (allExports_ne_nil hwf)
  obtain ⟨m, hm, hexm⟩ := List.mem_flatMap.mp hmem
  refine ⟨ex, hwf.expNames m hm ex hexm, ?_⟩
  simp only [pickRandomExport, GenM.bind_def, getModules_eq]
  exact hpick

theorem addOneReExport_spec (i : Nat) (s : GenState) (hwf : Wf s)
    (hi : i < s.modules.length) :
    ∃ s', addOneReExport i s = some ((), s') ∧ Wf s' ∧
      s'.modules.length = s.modules.length := by
  obtain ⟨ex, hexname, hpick⟩ := pickRandomExport_spec s hwf
  have hwf1 : Wf { s with pos := s.pos + 1 } := hwf
  by_cases horig : ex.name ∈
      (({ s with pos := s.pos + 1 } : GenState).modules.getD i default).originals
  · refine ⟨{ s with pos := s.pos + 1 }, ?_, hwf1, rfl⟩
    simp only [addOneReExport, GenM.bind_def, hpick, getModuleAt_eq, if_pos horig]
    rfl
  · obtain ⟨s2, himp, hwf2, hc2, hlen2, hao2⟩ :=
      importIntoModule_spec ex i { s with pos := s.pos + 1 } hwf1 hi hexname
    have hlen2' : s2.modules.length = s.modules.length := hlen2
    refine ⟨{ s2 with
        modules := s2.modules.set i
          { s2.modules.getD i default with
            exports := (s2.modules.getD i default).exports
              ++ [{ importedFrom := (s2.modules.getD i default).id
                    name := ex.name }] } }, ?_, ?_, ?_⟩
    · simp only [addOneReExport, GenM.bind_def, hpick, getModuleAt_eq, if_neg horig,
        himp, updateModuleAt_eq]
    · exact wfModules_push_export hwf2 (by omega) ex.name (by rw [hao2]; exact hexname)
    · simp only [List.length_set]
      omega

theorem addOneSideEffect_spec (i : Nat) (s : GenState) (hwf : Wf s)
    (hi : i < s.modules.length) :
    ∃ s', addOneSideEffect i s = some ((), s') ∧ Wf s' ∧
      s'.modules.length = s.modules.length := by
  obtain ⟨ex, hexname, hpick⟩ := pickRandomExport_spec s hwf
  have hwf1 : Wf { s with pos := s.pos + 1 } := hwf
  by_cases horig : ex.name ∈
      (({ s with pos := s.pos + 1 } : GenState).modules.getD i default).originals
  · refine ⟨{ s with pos := s.pos + 1 }, ?_, hwf1, rfl⟩
    simp only [addOneSideEffect, GenM.bind_def, hpick, getModuleAt_eq, if_pos horig]
    rfl
  · obtain ⟨s2, himp, hwf2, hc2, hlen2, hao2⟩ :=
      importIntoModule_spec ex i { s with pos := s.pos + 1 } hwf1 hi hexname
    have hlen2' : s2.modules.length = s.modules.length := hlen2
    refine ⟨{ s2 with
        modules := s2.modules.set i
          { s2.modules.getD i default with
            sideEffects := (s2.modules.getD i default).sideEffects
              ++ [ex.name] } }, ?_, ?_, ?_⟩
    · simp only [addOneSideEffect, GenM.bind_def, hpick, getModuleAt_eq, if_neg horig,
        himp, updateModuleAt_eq]
    · exact wfModules_push_se hwf2 (by omega) ex.name (by rw [hao2]; exact hexname)
    · simp only [List.length_set]
      omega

theorem addReExports_spec (s : GenState) (hwf : Wf s) :
    ∃ s', addReExports s = some ((), s') ∧ Wf s' ∧
      s'.modules.length = s.modules.length := by
  obtain ⟨s', hrun, hP⟩ := forRange_inv_bounded
    (fun _ s' => Wf s' ∧ s'.modules.length = s.modules.length)
    (fun i => do
      let k ← randomInt 0 5
      iterateM k (addOneReExport i))
    s.modules.length 0
    (by
      intro i si _ hilt hPi
      obtain ⟨hwfi, hleni⟩ := hPi
      obtain ⟨s2, hrun2, hP2⟩ := iterateM_inv
        (fun st => Wf st ∧ st.modules.length = s.modules.length)
        (addOneReExport i)
        (by
          intro st hPst
          obtain ⟨hwfst, hlenst⟩ := hPst
          obtain ⟨st', hst', hwf', hlen'⟩ :=
            addOneReExport_spec i st hwfst (by omega)
          exact ⟨st', hst', hwf', by omega⟩)
        (si.stream si.pos % 6) { si with pos := si.pos + 1 } ⟨hwfi, hleni⟩
      refine ⟨s2, ?_, hP2⟩
      simp only [GenM.bind_def, randomInt_eq]
      simpa using hrun2)
    s ⟨hwf, rfl⟩
  refine ⟨s', ?_, hP.1, hP.2⟩
  simp only [addReExports, GenM.bind_def, getModules_eq]
  exact hrun

theorem addSideEffects_spec (s : GenState) (hwf : Wf s) :
    ∃ s', addSideEffects s = some ((), s') ∧ Wf s' ∧
      s'.modules.length = s.modules.length := by
  obtain ⟨s', hrun, hP⟩ := forRange_inv_bounded
    (fun _ s' => Wf s' ∧ s'.modules.length = s.modules.length)
    (fun i => do
      let k ← randomInt 0 5
      iterateM k (addOneSideEffect i))
    s.modules.length 0
    (by
      intro i si _ hilt hPi
      obtain ⟨hwfi, hleni⟩ := hPi
      obtain ⟨s2, hrun2, hP2⟩ := iterateM_inv
        (fun st => Wf st ∧ st.modules.length = s.modules.length)
        (addOneSideEffect i)
        (by
          intro st hPst
          obtain ⟨hwfst, hlenst⟩ := hPst
          obtain ⟨st', hst', hwf', hlen'⟩ :=
            addOneSideEffect_spec i st hwfst (by omega)
          exact ⟨st', hst', hwf', by omega⟩)
        (si.stream si.pos % 6) { si with pos := si.pos + 1 } ⟨hwfi, hleni⟩
      refine ⟨s2, ?_, hP2⟩
      simp only [GenM.bind_def, randomInt_eq]
      simpa using hrun2)
    s ⟨hwf, rfl⟩
  refine ⟨s', ?_, hP.1, hP.2⟩
  simp only [addSideEffects, GenM.bind_def, getModules_eq]
  exact hrun

/-! ## Seed and original-exports stages -/

/-- State of the module set between `seedInitialModules` and
`addOriginalExports`: counter-derived distinct ids, all other fields
empty. -/
structure Seeded (c : Nat) (ms : List TrialModule) : Prop where
  ids : ∀ m ∈ ms, ∃ k, k < c ∧ m.id = idOf k
  idsNodup : (ms.map (fun m => m.id)).Nodup
  fieldsEmpty : ∀ m ∈ ms,
    m.originals = [] ∧ m.imports = [] ∧ m.sideEffects = [] ∧ m.exports = []

def SeededS (s : GenState) : Prop := Seeded s.counter s.modules

theorem iterateM_count (P : GenState → Prop) (body : GenM Unit)
    (h : ∀ s, P s → ∃ s', body s = some ((), s') ∧ P s'
      ∧ s'.modules.length = s.modules.length + 1) :
    ∀ k s, P s → ∃ s', iterateM k body s = some ((), s') ∧ P s'
      ∧ s'.modules.length = s.modules.length + k := by
  intro k
  induction k with
  | zero => intro s hP; exact ⟨s, rfl, hP, by simp⟩
  | succ k ih =>
    intro s hP
    obtain ⟨s1, hs1, hP1, hl1⟩ := h s hP
    obtain ⟨s2, hs2, hP2, hl2⟩ := ih s1 hP1
    refine ⟨s2, ?_, hP2, by omega⟩
    simp only [iterateM, GenM.bind_def, hs1]
    exact hs2

theorem seedBody_spec (s : GenState) (h : SeededS s) :
    ∃ s', (do
        let id ← getInternalId
        pushModule (newModule id) : GenM Unit) s = some ((), s')
      ∧ SeededS s' ∧ s'.modules.length = s.modules.length + 1 := by
  refine ⟨{ s with
      counter := s.counter + 1
      modules := s.modules ++ [newModule (idOf s.counter)] }, rfl, ?_, by simp⟩
  refine ⟨?_, ?_, ?_⟩
  · intro m hm
    show ∃ k, k < s.counter + 1 ∧ m.id = idOf k
    rcases List.mem_append.mp hm with hm | hm
    · obtain ⟨k, hk, hid⟩ := h.ids m hm
      exact ⟨k, by omega, hid⟩
    · rcases List.mem_singleton.mp hm with rfl
      exact ⟨s.counter, by omega, rfl⟩
  · rw [List.map_append, List.nodup_append]
    refine ⟨h.idsNodup, by simp, ?_⟩
    intro y hy hy2
    obtain ⟨m, hm, rfl⟩ := List.mem_map.mp hy
    obtain ⟨k, hk, hid⟩ := h.ids m hm
    have hcy : m.id = idOf s.counter := by simpa [newModule] using hy2
    rw [hid] at hcy
    have := idOf_inj hcy
    omega
  · intro m hm
    rcases List.mem_append.mp hm with hm | hm
    · exact h.fieldsEmpty m hm
    · rcases List.mem_singleton.mp hm with rfl
      exact ⟨rfl, rfl, rfl, rfl⟩

theorem seedInitialModules_spec (s : GenState) (h : SeededS s) :
    ∃ s', seedInitialModules s = some ((), s') ∧ SeededS s'
      ∧ s.modules.length + 2 ≤ s'.modules.length := by
  obtain ⟨s', hrun, h', hlen⟩ :=
    iterateM_count SeededS _ seedBody_spec
      (2 + s.stream s.pos % (5 - 2 + 1)) { s with pos := s.pos + 1 } h
  have hb : ({ s with pos := s.pos + 1 } : GenState).modules.length
      = s.modules.length := rfl
  refine ⟨s', ?_, h', by omega⟩
  have hd : seedInitialModules s
      = iterateM (2 + s.stream s.pos % (5 - 2 + 1)) (do
          let id ← getInternalId
          pushModule (newModule id)) { s with pos := s.pos + 1 } := rfl
  rw [hd]
  exact hrun

/-- Invariant maintained by `addOriginalExports` over the module list. -/
structure OrigPass (L c : Nat) (ms : List TrialModule) : Prop where
  len : ms.length = L
  ids : ∀ m ∈ ms, ∃ k, k < c ∧ m.id = idOf k
  idsNodup : (ms.map (fun m => m.id)).Nodup
  orig : ∀ nm ∈ allOriginals ms, ∃ k, k < c ∧ nm = nameOf k
  origNodup : (allOriginals ms).Nodup
  expNames : ∀ m ∈ ms, ∀ e ∈ m.exports, e.name ∈ allOriginals ms
  impEmpty : ∀ m ∈ ms, m.imports = []
  seEmpty : ∀ m ∈ ms, m.sideEffects = []

def OrigPassS (L : Nat) (s : GenState) : Prop := OrigPass L s.counter s.modules

/-- Modules with index below `i` already have a nonempty export list. -/
def expFilled (i : Nat) (s : GenState) : Prop :=
  ∀ j, j < i → (s.modules.getD j default).exports ≠ []

theorem addOneOriginal_spec (L i : Nat) (s : GenState)
    (hOP : OrigPassS L s) (hfill : expFilled i s) (hi : i < L) :
    ∃ s', addOneOriginal i s = some ((), s') ∧ OrigPassS L s' ∧ expFilled i s'
      ∧ (s'.modules.getD i default).exports ≠ [] := by
  have hiL : i < s.modules.length := by rw [hOP.len]; exact hi
  set mi : TrialModule := s.modules.getD i default with hmi
  set newmod : TrialModule :=
    { mi with
      originals := mi.originals ++ [nameOf s.counter]
      exports := mi.exports
        ++ [{ importedFrom := mi.id, name := nameOf s.counter }] } with hnewmod
  have hmimem : mi ∈ s.modules := mem_getD_of_lt s.modules i hiL
  refine ⟨{ s with
      counter := s.counter + 1
      modules := s.modules.set i newmod }, rfl, ?_, ?_, ?_⟩
  · show OrigPass L (s.counter + 1) (s.modules.set i newmod)
    obtain ⟨A, B, h1, h2⟩ := flatMap_set_decomp (fun m => m.originals) hiL newmod
    have h2' : allOriginals (s.modules.set i newmod)
        = A ++ (mi.originals ++ [nameOf s.counter]) ++ B := h2
    have h1' : allOriginals s.modules = A ++ mi.originals ++ B := h1
    have hfresh : nameOf s.counter ∉ allOriginals s.modules := by
      intro hc
      obtain ⟨k, hk, hkeq⟩ := hOP.orig _ hc
      have := nameOf_inj hkeq
      omega
    have holdmem : ∀ nm, nm ∈ allOriginals s.modules →
        nm ∈ A ++ (mi.originals ++ [nameOf s.counter]) ++ B := by
      intro nm hnm
      rw [h1'] at hnm
      simp only [List.mem_append, List.mem_singleton] at hnm ⊢
      tauto
    refine ⟨?_, ?_, ?_, ?_, ?_, ?_, ?_, ?_⟩
    · rw [List.length_set]; exact hOP.len
    · intro m hm
      show ∃ k, k < s.counter + 1 ∧ m.id = idOf k
      rcases mem_set_decomp hiL _ hm with rfl | hm
      · obtain ⟨k, hk, hid⟩ := hOP.ids mi hmimem
        exact ⟨k, by omega, hid⟩
      · obtain ⟨k, hk, hid⟩ := hOP.ids m hm
        exact ⟨k, by omega, hid⟩
    · obtain ⟨A2, B2, g1, g2⟩ := map_set_decomp (fun m => m.id) hiL newmod
      rw [g2.trans g1.symm]
      exact hOP.idsNodup
    · intro nm hnm
      show ∃ k, k < s.counter + 1 ∧ nm = nameOf k
      rw [h2'] at hnm
      simp only [List.mem_append, List.mem_singleton] at hnm
      rcases hnm with (hnm | hnm | rfl) | hnm
      · obtain ⟨k, hk, hkeq⟩ := hOP.orig nm (by rw [h1']; simp only [List.mem_append]; tauto)
        exact ⟨k, by omega, hkeq⟩
      · obtain ⟨k, hk, hkeq⟩ := hOP.orig nm (by rw [h1']; simp only [List.mem_append]; tauto)
        exact ⟨k, by omega, hkeq⟩
      · exact ⟨s.counter, by omega, rfl⟩
      · obtain ⟨k, hk, hkeq⟩ := hOP.orig nm (by rw [h1']; simp only [List.mem_append]; tauto)
        exact ⟨k, by omega, hkeq⟩
    · rw [h2']
      have hassoc : A ++ (mi.originals ++ [nameOf s.counter]) ++ B
          = (A ++ mi.originals) ++ nameOf s.counter :: B := by
        simp [List.append_assoc]
      rw [hassoc, List.nodup_middle, List.nodup_cons]
      constructor
      · intro hc
        apply hfresh
        rw [h1']
        simpa [List.append_assoc] using hc
      · have h0 := hOP.origNodup
        rw [h1'] at h0
        simpa [List.append_assoc] using h0
    · intro m hm e he
      show e.name ∈ allOriginals (s.modules.set i newmod)
      rw [h2']
      rcases mem_set_decomp hiL _ hm with rfl | hm
      · rcases List.mem_append.mp he with he | he
        · exact holdmem _ (hOP.expNames mi hmimem e he)
        · rcases List.mem_singleton.mp he with rfl
          simp
      · exact holdmem _ (hOP.expNames m hm e he)
    · intro m hm
      rcases mem_set_decomp hiL _ hm with rfl | hm
      · exact hOP.impEmpty mi hmimem
      · exact hOP.impEmpty m hm
    · intro m hm
      rcases mem_set_decomp hiL _ hm with rfl | hm
      · exact hOP.seEmpty mi hmimem
      · exact hOP.seEmpty m hm
  · intro j hj
    show ((s.modules.set i newmod).getD j default).exports ≠ []
    rw [getD_set_lt _ _ _ _ hj]
    exact hfill j hj
  · show ((s.modules.set i newmod).getD i default).exports ≠ []
    rw [getD_set_self _ _ _ hiL]
    rw [hnewmod]
    simp

theorem origOuterBody_spec (L i : Nat) (s : GenState)
    (hOP : OrigPassS L s) (hfill : expFilled i s) (hi : i < L) :
    ∃ s', (do
        let k ← randomInt 1 5
        iterateM k (addOneOriginal i)) s = some ((), s')
      ∧ OrigPassS L s' ∧ expFilled (i + 1) s' := by
  obtain ⟨s', hrun, ⟨hOP', hfill'⟩, hQ⟩ := iterateM_inv_estab
    (fun st => OrigPassS L st ∧ expFilled i st)
    (fun st => (st.modules.getD i default).exports ≠ [])
    (addOneOriginal i)
    (by
      intro st hPst
      obtain ⟨s2, h1', h2', h3', h4'⟩ := addOneOriginal_spec L i st hPst.1 hPst.2 hi
      exact ⟨s2, h1', ⟨h2', h3'⟩, h4'⟩)
    (s.stream s.pos % 5) { s with pos := s.pos + 1 } ⟨hOP, hfill⟩
  refine ⟨s', ?_, hOP', ?_⟩
  · have hd : (do
        let k ← randomInt 1 5
        iterateM k (addOneOriginal i)) s
      = iterateM (1 + s.stream s.pos % (5 - 1 + 1)) (addOneOriginal i)
          { s with pos := s.pos + 1 } := rfl
    rw [hd, show 1 + s.stream s.pos % (5 - 1 + 1) = s.stream s.pos % 5 + 1 from by omega]
    exact hrun
  · intro j hj
    rcases Nat.lt_succ_iff_lt_or_eq.mp hj with hj | rfl
    · exact hfill' j hj
    · exact hQ

theorem addOriginalExports_spec (s : GenState) (hseed : SeededS s)
    (hne : s.modules ≠ []) :
    ∃ s', addOriginalExports s = some ((), s') ∧ Wf s'
      ∧ s'.modules.length = s.modules.length := by
  have hAOnil : allOriginals s.modules = [] := by
    rw [List.eq_nil_iff_forall_not_mem]
    intro nm hnm
    obtain ⟨m, hm, hnm2⟩ := List.mem_flatMap.mp hnm
    rw [(hseed.fieldsEmpty m hm).1] at hnm2
    cases hnm2
  have hOP0 : OrigPassS s.modules.length s := by
    refine ⟨rfl, hseed.ids, hseed.idsNodup, ?_, ?_, ?_, ?_, ?_⟩
    · intro nm hnm; rw [hAOnil] at hnm; cases hnm
    · rw [hAOnil]; exact List.nodup_nil
    · intro m hm e he
      rw [(hseed.fieldsEmpty m hm).2.2.2] at he
      cases he
    · intro m hm; exact (hseed.fieldsEmpty m hm).2.1
    · intro m hm; exact (hseed.fieldsEmpty m hm).2.2.1
  obtain ⟨s', hrun, hP⟩ := forRange_inv_bounded
    (fun i st => OrigPassS s.modules.length st ∧ expFilled i st)
    (fun i => do
      let k ← randomInt 1 5
      iterateM k (addOneOriginal i))
    s.modules.length 0
    (by
      intro i si _ hilt hPi
      obtain ⟨s2, h1', h2', h3'⟩ :=
        origOuterBody_spec s.modules.length i si hPi.1 hPi.2 (by omega)
      exact ⟨s2, h1', h2', h3'⟩)
    s ⟨hOP0, fun j hj => by omega⟩
  obtain ⟨hOP', hfill'⟩ := hP
  have hlen' : s'.modules.length = s.modules.length := hOP'.len
  refine ⟨s', ?_, ?_, hlen'⟩
  · have hd : addOriginalExports s
      = forRange 0 s.modules.length (fun i => do
          let k ← randomInt 1 5
          iterateM k (addOneOriginal i)) s := rfl
    rw [hd]
    simpa using hrun
  · refine ⟨?_, hOP'.ids, hOP'.idsNodup, hOP'.orig, hOP'.origNodup, ?_,
      hOP'.expNames, ?_, ?_, ?_⟩
    · intro hc
      rw [hc] at hlen'
      exact hne (List.length_eq_zero.mp hlen'.symm)
    · intro m hm
      obtain ⟨j, hj, hgd⟩ := exists_getD_of_mem hm
      rw [← hgd]
      exact hfill' j (by omega)
    · intro m hm b hb
      rw [hOP'.impEmpty m hm] at hb
      cases hb
    · intro m hm
      rw [hOP'.impEmpty m hm]
      exact List.nodup_nil
    · intro m hm se hse
      rw [hOP'.seEmpty m hm] at hse
      cases hse

/-! ## The full planning pipeline -/

theorem planPasses_spec (s : GenState) (h0 : s.modules = []) :
    ∃ s', planPasses s = some ((), s') ∧ Wf s' := by
  have hseed0 : SeededS s := by
    refine ⟨?_, ?_, ?_⟩
    · intro m hm; rw [h0] at hm; cases hm
    · rw [h0]; exact List.nodup_nil
    · intro m hm; rw [h0] at hm; cases hm
  obtain ⟨s1, h1, hs1, hl1⟩ := seedInitialModules_spec s hseed0
  have hne1 : s1.modules ≠ [] := by
    intro hc
    rw [hc] at hl1
    simp at hl1
  obtain ⟨s2, h2, hw2, hl2⟩ := addOriginalExports_spec s1 hs1 hne1
  obtain ⟨s3, h3, hw3, hl3⟩ := addReExports_spec s2 hw2
  obtain ⟨s4, h4, hw4, hl4⟩ := addSideEffects_spec s3 hw3
  refine ⟨s4, ?_, hw4⟩
  simp only [planPasses, GenM.bind_def, h1, h2, h3]
  exact h4

/-- Every run of the four generation passes succeeds and yields a
well-formed module set. -/
theorem genTrial_spec (stream : Nat → Nat) :
    ∃ c ms, genTrial stream = some ms ∧ WfModules c ms := by
  obtain ⟨s', hrun, hwf⟩ :=
    planPasses_spec { counter := 0, modules := [], stream := stream, pos := 0 } rfl
  refine ⟨s'.counter, s'.modules, ?_, hwf⟩
  simp only [genTrial, hrun]

/-! ## Concrete random streams and their generated trials -/

def zerosStream : Nat → Nat := fun _ => 0

/-- Stream driving one re-export in the second module (draw 4 picks the
iteration count of the re-export loop for module `e1`). -/
def cexStream : Nat → Nat := fun n => if n = 4 then 1 else 0

/-- Stream driving one side-effect invocation in the first module. -/
def seStream : Nat → Nat := fun n => if n = 5 then 1 else if n = 6 then 1 else 0

def seededMods : List TrialModule := [newModule "e0", newModule "e1"]

/-- The trial generated by the all-zeros stream: two modules, one original
export each, no re-exports, no side effects. -/
def zerosModules : List TrialModule :=
  [{ id := "e0", originals := ["export_e2"], imports := [], sideEffects := []
     exports := [{ importedFrom := "e0", name := "export_e2" }] },
   { id := "e1", originals := ["export_e3"], imports := [], sideEffects := []
     exports := [{ importedFrom := "e1", name := "export_e3" }] }]

/-- The trial generated by `cexStream`: module `e1` re-exports `e0`'s
original `export_e2`, so `export_e2` appears as an export entry of both
modules. -/
def cexModules : List TrialModule :=
  [{ id := "e0", originals := ["export_e2"], imports := [], sideEffects := []
     exports := [{ importedFrom := "e0", name := "export_e2" }] },
   { id := "e1", originals := ["export_e3"]
     imports := [{ importedFrom := "e0", name := "export_e2", means := Means.static }]
     sideEffects := []
     exports := [{ importedFrom := "e1", name := "export_e3" },
                 { importedFrom := "e1", name := "export_e2" }] }]

/-- The trial generated by `seStream`: module `e0` statically imports
`e1`'s `export_e3` and invokes it as a side effect. -/
def seModules : List TrialModule :=
  [{ id := "e0", originals := ["export_e2"]
     imports := [{ importedFrom := "e1", name := "export_e3", means := Means.static }]
     sideEffects := ["export_e3"]
     exports := [{ importedFrom := "e0", name := "export_e2" }] },
   { id := "e1", originals := ["export_e3"], imports := [], sideEffects := []
     exports := [{ importedFrom := "e1", name := "export_e3" }] }]

theorem genTrial_zeros_eq : genTrial zerosStream = some zerosModules := by
  have h1 : seedInitialModules
        { counter := 0, modules := [], stream := zerosStream, pos := 0 }
      = some ((), { counter := 2, modules := seededMods, stream := zerosStream, pos := 1 }) := rfl
  have h2 : addOriginalExports
        { counter := 2, modules := seededMods, stream := zerosStream, pos := 1 }
      = some ((), { counter := 4, modules := zerosModules, stream := zerosStream, pos := 3 }) := rfl
  have h3 : addReExports
        { counter := 4, modules := zerosModules, stream := zerosStream, pos := 3 }
      = some ((), { counter := 4, modules := zerosModules, stream := zerosStream, pos := 5 }) := rfl
  have h4 : addSideEffects
        { counter := 4, modules := zerosModules, stream := zerosStream, pos := 5 }
      = some ((), { counter := 4, modules := zerosModules, stream := zerosStream, pos := 7 }) := rfl
  have h5 : planPasses { counter := 0, modules := [], stream := zerosStream, pos := 0 }
      = some ((), { counter := 4, modules := zerosModules, stream := zerosStream, pos := 7 }) := by
    simp only [planPasses, GenM.bind_def, h1, h2, h3, h4]
  simp only [genTrial, h5]

theorem genTrial_cex_eq : genTrial cexStream = some cexModules := by
  have h1 : seedInitialModules
        { counter := 0, modules := [], stream := cexStream, pos := 0 }
      = some ((), { counter := 2, modules := seededMods, stream := cexStream, pos := 1 }) := rfl
  have h2 : addOriginalExports
        { counter := 2, modules := seededMods, stream := cexStream, pos := 1 }
      = some ((), { counter := 4, modules := zerosModules, stream := cexStream, pos := 3 }) := rfl
  have h3 : addReExports
        { counter := 4, modules := zerosModules, stream := cexStream, pos := 3 }
      = some ((), { counter := 4, modules := cexModules, stream := cexStream, pos := 7 }) := rfl
  have h4 : addSideEffects
        { counter := 4, modules := cexModules, stream := cexStream, pos := 7 }
      = some ((), { counter := 4, modules := cexModules, stream := cexStream, pos := 9 }) := rfl
  have h5 : planPasses { counter := 0, modules := [], stream := cexStream, pos := 0 }
      = some ((), { counter := 4, modules := cexModules, stream := cexStream, pos := 9 }) := by
    simp only [planPasses, GenM.bind_def, h1, h2, h3, h4]
  simp only [genTrial, h5]

theorem genTrial_se_eq : genTrial seStream = some seModules := by
  have h1 : seedInitialModules
        { counter := 0, modules := [], stream := seStream, pos := 0 }
      = some ((), { counter := 2, modules := seededMods, stream := seStream, pos := 1 }) := rfl
  have h2 : addOriginalExports
        { counter := 2, modules := seededMods, stream := seStream, pos := 1 }
      = some ((), { counter := 4, modules := zerosModules, stream := seStream, pos := 3 }) := rfl
  have h3 : addReExports
        { counter := 4, modules := zerosModules, stream := seStream, pos := 3 }
      = some ((), { counter := 4, modules := zerosModules, stream := seStream, pos := 5 }) := rfl
  have h4 : addSideEffects
        { counter := 4, modules := zerosModules, stream := seStream, pos := 5 }
      = some ((), { counter := 4, modules := seModules, stream := seStream, pos := 9 }) := rfl
  have h5 : planPasses { counter := 0, modules := [], stream := seStream, pos := 0 }
      = some ((), { counter := 4, modules := seModules, stream := seStream, pos := 9 }) := by
    simp only [planPasses, GenM.bind_def, h1, h2, h3, h4]
  simp only [genTrial, h5]

/-! ## Branch shape of `importIntoModule` (for idempotence and
append-only behavior) -/

theorem find?_append_of_none {α : Type} {p : α → Bool} {l1 : List α}
    (h : l1.find? p = none) (l2 : List α) :
    (l1 ++ l2).find? p = l2.find? p := by
  induction l1 with
  | nil => rfl
  | cons a rest ih =>
    cases hp : p a with
    | false =>
      rw [List.find?_cons_of_neg _ (by simp [hp])] at h
      rw [List.cons_append, List.find?_cons_of_neg _ (by simp [hp])]
      exact ih h
    | true => rw [List.find?_cons_of_pos _ hp] at h; cases h

theorem importIntoModule_found_eq {ex : TrialExport} {i : Nat} {s : GenState}
    {b : TaggedTrialExport}
    (hfind : (s.modules.getD i default).imports.find?
      (fun x => x.name == ex.name) = some b) :
    importIntoModule ex i s = some (ex.name, s) := by
  have hbname : b.name = ex.name := by simpa using List.find?_some hfind
  simp only [importIntoModule, GenM.bind_def, getModuleAt_eq, hfind]
  rw [hbname]
  rfl

theorem importIntoModule_orig_eq {ex : TrialExport} {i : Nat} {s : GenState}
    (hfind : (s.modules.getD i default).imports.find?
      (fun x => x.name == ex.name) = none)
    (horig : ex.name ∈ (s.modules.getD i default).originals) :
    importIntoModule ex i s = some (ex.name, s) := by
  simp only [importIntoModule, GenM.bind_def, getModuleAt_eq, hfind, if_pos horig]
  rfl

theorem importIntoModule_new_eq {ex : TrialExport} {i : Nat} {s : GenState}
    (hfind : (s.modules.getD i default).imports.find?
      (fun x => x.name == ex.name) = none)
    (horig : ex.name ∉ (s.modules.getD i default).originals) :
    ∃ mn, importIntoModule ex i s = some (ex.name, { s with
      pos := s.pos + 1
      modules := s.modules.set i
        { s.modules.getD i default with
          imports := (s.modules.getD i default).imports
            ++ [{ importedFrom := ex.importedFrom, name := ex.name
                  means := mn }] } }) := by
  obtain ⟨mn, hmn, hpick⟩ := pickM_eq_some [Means.static, Means.dynamic] s (by simp)
  refine ⟨mn, ?_⟩
  simp only [importIntoModule, GenM.bind_def, getModuleAt_eq, hfind, if_neg horig,
    hpick, updateModuleAt_eq]
  rfl

/-! ## Claim theorems -/

/-- C1: for every module graph — cyclic ones included — the
`analyzeSideEffects` recursion is fuel-stable at fuel `modules.length + 1`
(any larger fuel computes the same answer, i.e. the source recursion
terminates and returns a finite set), the returned effect set is
duplicate-free, and an id already present in the visited list is not
re-entered: the call returns both accumulators unchanged. -/
theorem claim1_analyzeSideEffects_terminates (modules : List TrialModule)
    (id : String) (traced effects : List String) (fuel : Nat) :
    (modules.length + 1 ≤ fuel →
      analyzeAux modules fuel id [] [] = analyzeSideEffects modules id)
    ∧ (id ∈ traced → analyzeAux modules fuel id traced effects = (traced, effects))
    ∧ (expectedEffects modules id).Nodup := by
  refine ⟨?_, ?_, ?_⟩
  · intro hfuel
    exact analyzeAux_stable modules modules.length fuel (modules.length + 1) id [] []
      (untraced_le_length modules []) (by omega) (by omega)
  · intro hmem
    exact analyzeAux_mem_traced modules id effects hmem fuel
  · exact analyzeAux_nodup modules (modules.length + 1) id [] [] List.nodup_nil

/-- A module graph with an import cycle (`e0` imports from `e1` and vice
versa), used to witness C1 on a cyclic graph. -/
def cycMods : List TrialModule :=
  [{ id := "e0", originals := ["export_e2"]
     imports := [{ importedFrom := "e1", name := "export_e3", means := Means.static }]
     sideEffects := ["export_e3"]
     exports := [{ importedFrom := "e0", name := "export_e2" }] },
   { id := "e1", originals := ["export_e3"]
     imports := [{ importedFrom := "e0", name := "export_e2", means := Means.dynamic }]
     sideEffects := ["export_e2"]
     exports := [{ importedFrom := "e1", name := "export_e3" }] }]

theorem claim1_witness :
    cycMods.length + 1 ≤ 10
    ∧ ("e0" : String) ∈ ["e0"]
    ∧ analyzeAux cycMods 10 "e0" [] [] = analyzeSideEffects cycMods "e0"
    ∧ analyzeAux cycMods 10 "e0" ["e0"] [] = (["e0"], [])
    ∧ (expectedEffects cycMods "e0").Nodup :=
  ⟨by decide, by decide,
    (claim1_analyzeSideEffects_terminates cycMods "e0" ["e0"] [] 10).1 (by decide),
    (claim1_analyzeSideEffects_terminates cycMods "e0" ["e0"] [] 10).2.1 (by decide),
    (claim1_analyzeSideEffects_terminates cycMods "e0" ["e0"] [] 10).2.2⟩

/-- C2 counterexample: on the concrete stream `cexStream` the generated
trial contains two export entries with the same name — module `e1`
re-exports `e0`'s original `export_e2`, so the entry list of names across
all modules is `[export_e2, export_e3, export_e2]`, which is not
duplicate-free.  The claim "no two export entries across all of the
trial's modules have the same name" is therefore false as stated. -/
theorem claim2_counterexample :
    genTrial cexStream = some cexModules
    ∧ ¬ ((cexModules.flatMap (fun m => m.exports)).map (fun e => e.name)).Nodup :=
  ⟨genTrial_cex_eq, by decide⟩

/-- C2 amended: freshly generated (original) export names are globally
unique within the trial — the counter-generated `originals` across all
modules are pairwise distinct and all of the form `export_e<base36>` —
while every export entry's name (re-export entries included) refers to
one of those originals, so duplicates among export entries only arise
from re-exporting an existing name, never from the counter. -/
theorem claim2_amended (stream : Nat → Nat) (ms : List TrialModule)
    (h : genTrial stream = some ms) :
    (allOriginals ms).Nodup
    ∧ (∀ m ∈ ms, ∀ e ∈ m.exports, e.name ∈ allOriginals ms)
    ∧ (∀ nm ∈ allOriginals ms, ∃ k, nm = nameOf k) := by
  obtain ⟨c, ms', hgen, hwf⟩ := genTrial_spec stream
  rw [h] at hgen
  injection hgen with hgen
  subst hgen
  refine ⟨hwf.origNodup, hwf.expNames, ?_⟩
  intro nm hnm
  obtain ⟨k, _, hk⟩ := hwf.orig nm hnm
  exact ⟨k, hk⟩

theorem claim2_witness :
    genTrial zerosStream = some zerosModules
    ∧ (allOriginals zerosModules).Nodup
    ∧ (∀ m ∈ zerosModules, ∀ e ∈ m.exports, e.name ∈ allOriginals zerosModules) :=
  ⟨genTrial_zeros_eq,
    (claim2_amended zerosStream zerosModules genTrial_zeros_eq).1,
    (claim2_amended zerosStream zerosModules genTrial_zeros_eq).2.1⟩

/-- C4: the archive retention step keeps a stored document that is
strictly shorter than the new one and overwrites otherwise (absence of a
stored document always writes); consequently, recording documents of
lengths 100 and 80 in either order leaves the shorter one stored. -/
theorem claim4_archive_retention (d1 d2 : String) (h : d2.length < d1.length) :
    retainIfSmaller (retainIfSmaller none d1) d2 = some d2
    ∧ retainIfSmaller (retainIfSmaller none d2) d1 = some d2
    ∧ (∀ stored doc : String, stored.length < doc.length →
        retainIfSmaller (some stored) doc = some stored)
    ∧ (∀ stored doc : String, ¬ stored.length < doc.length →
        retainIfSmaller (some stored) doc = some doc)
    ∧ (∀ doc : String, retainIfSmaller none doc = some doc) := by
  refine ⟨?_, ?_, ?_, ?_, fun doc => rfl⟩
  · show retainIfSmaller (some d1) d2 = some d2
    simp only [retainIfSmaller]
    rw [if_neg (by omega)]
  · show retainIfSmaller (some d2) d1 = some d2
    simp only [retainIfSmaller]
    rw [if_pos h]
  · intro stored doc hlt
    simp only [retainIfSmaller]
    rw [if_pos hlt]
  · intro stored doc hge
    simp only [retainIfSmaller]
    rw [if_neg hge]

def doc100 : String := String.mk (List.replicate 100 'a')

def doc80 : String := String.mk (List.replicate 80 'b')

theorem claim4_witness :
    doc80.length < doc100.length
    ∧ retainIfSmaller (retainIfSmaller none doc100) doc80 = some doc80
    ∧ retainIfSmaller (retainIfSmaller none doc80) doc100 = some doc80 :=
  ⟨by decide,
    (claim4_archive_retention doc100 doc80 (by decide)).1,
    (claim4_archive_retention doc100 doc80 (by decide)).2.1⟩

/-- C5: `categorizeError` lower-cases the error text and returns the
first matching category substring in the fixed order `duplicate`,
`cannot find module`, `is not a function`, `expected side effect`; when
none matches it returns no category (the source throws), and the
recording step then aborts without writing a reproduction document for
any category. -/
theorem claim5_categorizeError (err repro : String)
    (archive : String → Option String) :
    (categorizeError err
      = if containsSubstr (toLowerStr err) "duplicate" then some "duplicate"
        else if containsSubstr (toLowerStr err) "cannot find module" then
          some "cannot find module"
        else if containsSubstr (toLowerStr err) "is not a function" then
          some "is not a function"
        else if containsSubstr (toLowerStr err) "expected side effect" then
          some "expected side effect"
        else none)
    ∧ ((∀ c ∈ errorCategories, containsSubstr (toLowerStr err) c = false) →
        categorizeError err = none ∧ recordFailure err repro archive = none) := by
  constructor
  · cases h1 : containsSubstr (toLowerStr err) "duplicate" <;>
      cases h2 : containsSubstr (toLowerStr err) "cannot find module" <;>
        cases h3 : containsSubstr (toLowerStr err) "is not a function" <;>
          cases h4 : containsSubstr (toLowerStr err) "expected side effect" <;>
            simp [categorizeError, errorCategories, List.find?, h1, h2, h3, h4]
  · intro hall
    have hnone : categorizeError err = none := by
      show errorCategories.find? (fun c => containsSubstr (toLowerStr err) c) = none
      rw [List.find?_eq_none]
      intro c hc
      simp [hall c hc]
    exact ⟨hnone, by simp only [recordFailure, hnone]⟩

theorem claim5_witness :
    (∀ c ∈ errorCategories,
      containsSubstr (toLowerStr "weird failure") c = false)
    ∧ categorizeError "weird failure" = none
    ∧ recordFailure "weird failure" "doc" (fun _ => none) = none :=
  ⟨by decide,
    ((claim5_categorizeError "weird failure" "doc" (fun _ => none)).2 (by decide)).1,
    ((claim5_categorizeError "weird failure" "doc" (fun _ => none)).2 (by decide)).2⟩

/-- C3: `importIntoModule` is idempotent — for every export reference and
target module (index) in every state, both calls return the same binding
name (`exported.name`), and the second call leaves the target module's
imports list exactly as the first call left it. -/
theorem claim3_importIntoModule_idempotent (ex : TrialExport) (i : Nat)
    (s : GenState) :
    ∃ s1 s2, importIntoModule ex i s = some (ex.name, s1)
      ∧ importIntoModule ex i s1 = some (ex.name, s2)
      ∧ (s2.modules.getD i default).imports
        = (s1.modules.getD i default).imports := by
  cases hfind : (s.modules.getD i default).imports.find?
      (fun x => x.name == ex.name) with
  | some b =>
    exact ⟨s, s, importIntoModule_found_eq hfind,
      importIntoModule_found_eq hfind, rfl⟩
  | none =>
    by_cases horig : ex.name ∈ (s.modules.getD i default).originals
    · exact ⟨s, s, importIntoModule_orig_eq hfind horig,
        importIntoModule_orig_eq hfind horig, rfl⟩
    · obtain ⟨mn, hnew⟩ := importIntoModule_new_eq hfind horig
      set b1 : TaggedTrialExport :=
        { importedFrom := ex.importedFrom, name := ex.name, means := mn } with hb1
      set m1 : TrialModule :=
        { s.modules.getD i default with
          imports := (s.modules.getD i default).imports ++ [b1] } with hm1
      set s1 : GenState :=
        { s with pos := s.pos + 1, modules := s.modules.set i m1 } with hs1
      by_cases hi : i < s.modules.length
      · have hgd : s1.modules.getD i default = m1 := getD_set_self _ _ _ hi
        have hfind2 : (s1.modules.getD i default).imports.find?
            (fun x => x.name == ex.name) = some b1 := by
          rw [hgd, hm1]
          show ((s.modules.getD i default).imports ++ [b1]).find?
            (fun x => x.name == ex.name) = some b1
          rw [find?_append_of_none hfind]
          rw [List.find?_cons_of_pos _ (by simp [hb1])]
        exact ⟨s1, s1, hnew, importIntoModule_found_eq hfind2, rfl⟩
      · have hmods1 : s1.modules = s.modules := by
          show s.modules.set i m1 = s.modules
          exact List.set_eq_of_length_le (by omega)
        have hgd1 : s1.modules.getD i default = s.modules.getD i default := by
          rw [hmods1]
        have hfind1 : (s1.modules.getD i default).imports.find?
            (fun x => x.name == ex.name) = none := by rw [hgd1]; exact hfind
        have horig1 : ex.name ∉ (s1.modules.getD i default).originals := by
          rw [hgd1]; exact horig
        obtain ⟨mn2, hnew2⟩ := importIntoModule_new_eq hfind1 horig1
        refine ⟨s1, _, hnew, hnew2, ?_⟩
        show ((s1.modules.set i _).getD i default).imports
          = (s1.modules.getD i default).imports
        rw [List.set_eq_of_length_le (by rw [hmods1]; omega)]

/-- C6: in every generated trial, no module's imports list holds a binding
whose name is also one of that module's own originals — no operation of
the generator ever creates a self-import. -/
theorem claim6_no_self_import (stream : Nat → Nat) (ms : List TrialModule)
    (h : genTrial stream = some ms) :
    ∀ m ∈ ms, ∀ b ∈ m.imports, b.name ∉ m.originals := by
  obtain ⟨c, ms', hgen, hwf⟩ := genTrial_spec stream
  rw [h] at hgen
  injection hgen with hgen
  subst hgen
  exact hwf.impNotOrig

theorem claim6_witness :
    genTrial seStream = some seModules
    ∧ ∀ m ∈ seModules, ∀ b ∈ m.imports, b.name ∉ m.originals :=
  ⟨genTrial_se_eq, claim6_no_self_import seStream seModules genTrial_se_eq⟩

/-- C7: in every generated trial no module holds two import bindings with
the same name, and `importIntoModule` never rewrites an existing binding:
each call either leaves the target's imports untouched or appends exactly
one new binding, so a binding's mode is fixed when it is created. -/
theorem claim7_import_bindings (stream : Nat → Nat) (ms : List TrialModule)
    (h : genTrial stream = some ms) :
    (∀ m ∈ ms, (m.imports.map (fun b => b.name)).Nodup)
    ∧ (∀ (ex : TrialExport) (i : Nat) (s : GenState),
        ∃ s', importIntoModule ex i s = some (ex.name, s')
          ∧ ((s'.modules.getD i default).imports
              = (s.modules.getD i default).imports
            ∨ ∃ b, (s'.modules.getD i default).imports
                = (s.modules.getD i default).imports ++ [b]
                ∧ b.name = ex.name)) := by
  obtain ⟨c, ms', hgen, hwf⟩ := genTrial_spec stream
  rw [h] at hgen
  injection hgen with hgen
  subst hgen
  refine ⟨hwf.impNodup, ?_⟩
  intro ex i s
  cases hfind : (s.modules.getD i default).imports.find?
      (fun x => x.name == ex.name) with
  | some b => exact ⟨s, importIntoModule_found_eq hfind, Or.inl rfl⟩
  | none =>
    by_cases horig : ex.name ∈ (s.modules.getD i default).originals
    · exact ⟨s, importIntoModule_orig_eq hfind horig, Or.inl rfl⟩
    · obtain ⟨mn, hnew⟩ := importIntoModule_new_eq hfind horig
      by_cases hi : i < s.modules.length
      · refine ⟨_, hnew, Or.inr
          ⟨{ importedFrom := ex.importedFrom, name := ex.name, means := mn }, ?_, rfl⟩⟩
        have hgd := getD_set_self s.modules i
          { s.modules.getD i default with
            imports := (s.modules.getD i default).imports
              ++ [{ importedFrom := ex.importedFrom, name := ex.name
                    means := mn }] } hi
        show ((s.modules.set i _).getD i default).imports = _
        rw [hgd]
      · refine ⟨_, hnew, Or.inl ?_⟩
        show ((s.modules.set i _).getD i default).imports = _
        rw [List.set_eq_of_length_le (by omega)]

theorem claim7_witness :
    genTrial seStream = some seModules
    ∧ ∀ m ∈ seModules, (m.imports.map (fun b => b.name)).Nodup :=
  ⟨genTrial_se_eq, (claim7_import_bindings seStream seModules genTrial_se_eq).1⟩

/-- C8: after entrypoint selection the entrypoint list has between 1 and
`min 3 (module count)` elements, and its elements are distinct modules of
the trial's module set; the shuffle is embedded as an arbitrary
permutation of the modules (the random comparator passed to
`Array.prototype.sort` reorders the array but keeps its elements). -/
theorem claim8_entrypoints (stream : Nat → Nat) (ms shuffled : List TrialModule)
    (h : genTrial stream = some ms) (hperm : shuffled.Perm ms) (s : GenState) :
    ∃ eps s', chooseEntrypoints shuffled s = some (eps, s')
      ∧ 1 ≤ eps.length ∧ eps.length ≤ min 3 ms.length
      ∧ eps.Nodup ∧ ∀ m ∈ eps, m ∈ ms := by
  obtain ⟨c, ms', hgen, hwf⟩ := genTrial_spec stream
  rw [h] at hgen
  injection hgen with hgen
  subst hgen
  have hlen : shuffled.length = ms.length := hperm.length_eq
  have hmslen : 1 ≤ ms.length := by
    cases hms : ms with
    | nil => exact absurd hms hwf.ne
    | cons a l => simp
  have heval : chooseEntrypoints shuffled s
      = some (shuffled.take
          (1 + s.stream s.pos % (Nat.min 3 shuffled.length - 1 + 1)),
        { s with pos := s.pos + 1 }) := rfl
  have h0s : 1 ≤ shuffled.length := by omega
  have hminpos : 0 < Nat.min 3 shuffled.length :=
    lt_min_iff.mpr ⟨by omega, by omega⟩
  have hmod := Nat.mod_lt (s.stream s.pos)
    (show 0 < Nat.min 3 shuffled.length - 1 + 1 by omega)
  have hn1 : 1 ≤ 1 + s.stream s.pos % (Nat.min 3 shuffled.length - 1 + 1) :=
    Nat.le_add_right 1 _
  have hnle : 1 + s.stream s.pos % (Nat.min 3 shuffled.length - 1 + 1)
      ≤ Nat.min 3 shuffled.length := by omega
  have hmsnodup : ms.Nodup := List.Nodup.of_map _ hwf.idsNodup
  refine ⟨_, _, heval, ?_, ?_, ?_, ?_⟩
  · rw [List.length_take]
    exact le_min_iff.mpr ⟨hn1, h0s⟩
  · rw [List.length_take]
    calc min (1 + s.stream s.pos % (Nat.min 3 shuffled.length - 1 + 1))
          shuffled.length
        ≤ 1 + s.stream s.pos % (Nat.min 3 shuffled.length - 1 + 1) :=
          min_le_left _ _
      _ ≤ Nat.min 3 shuffled.length := hnle
      _ = min 3 ms.length := by rw [hlen]
  · exact List.Nodup.sublist (List.take_sublist _ _) (hperm.nodup_iff.mpr hmsnodup)
  · intro m hm
    exact hperm.subset (List.take_subset _ _ hm)

theorem claim8_witness :
    genTrial zerosStream = some zerosModules
    ∧ zerosModules.reverse.Perm zerosModules
    ∧ ∃ eps s', chooseEntrypoints zerosModules.reverse
          { counter := 0, modules := [], stream := zerosStream, pos := 0 }
        = some (eps, s')
      ∧ 1 ≤ eps.length ∧ eps.length ≤ min 3 zerosModules.length
      ∧ eps.Nodup ∧ ∀ m ∈ eps, m ∈ zerosModules :=
  ⟨genTrial_zeros_eq, by decide,
    claim8_entrypoints zerosStream zerosModules zerosModules.reverse
      genTrial_zeros_eq (by decide)
      { counter := 0, modules := [], stream := zerosStream, pos := 0 }⟩

/-- C9: in every generated trial, side-effect names (`export_e<base36>`)
are disjoint from module ids (`e<base36>`), so the analyzer's recursive
call on a side-effect name finds no module and returns both accumulators
unchanged; removing that recursive call (`analyzeSideEffectsNR`) computes
the same result for every entrypoint id. -/
theorem claim9_sideeffect_recursion_noop (stream : Nat → Nat)
    (ms : List TrialModule) (h : genTrial stream = some ms) :
    (∀ m ∈ ms, ∀ se ∈ m.sideEffects, ∀ fuel traced effects,
      analyzeAux ms fuel se traced effects = (traced, effects))
    ∧ ∀ id, analyzeSideEffects ms id = analyzeSideEffectsNR ms id := by
  obtain ⟨c, ms', hgen, hwf⟩ := genTrial_spec stream
  rw [h] at hgen
  injection hgen with hgen
  subst hgen
  have hdisj : ∀ m ∈ ms, ∀ m' ∈ ms, ∀ se ∈ m'.sideEffects, m.id ≠ se := by
    intro m hm m' hm' se hse
    obtain ⟨j, hj, hid⟩ := hwf.ids m hm
    obtain ⟨k, hk, hkeq⟩ := hwf.orig se (hwf.seNames m' hm' se hse)
    rw [hid, hkeq]
    intro hc
    exact nameOf_ne_idOf k j hc.symm
  constructor
  · intro m hm se hse fuel traced effects
    exact analyzeAux_no_module ms se
      (fun m' hm' => hdisj m' hm' m hm se hse) fuel traced effects
  · intro id
    exact analyzeAux_eq_NR ms hdisj (ms.length + 1) id [] []

theorem claim9_witness :
    genTrial seStream = some seModules
    ∧ (∀ m ∈ seModules, ∀ se ∈ m.sideEffects, ∀ fuel traced effects,
        analyzeAux seModules fuel se traced effects = (traced, effects))
    ∧ ∀ id, analyzeSideEffects seModules id = analyzeSideEffectsNR seModules id :=
  ⟨genTrial_se_eq,
    (claim9_sideeffect_recursion_noop seStream seModules genTrial_se_eq).1,
    (claim9_sideeffect_recursion_noop seStream seModules genTrial_se_eq).2⟩

/-- C10: `pick` on an empty candidate list throws (`none`), but whenever
the original-exports pass has run — every module has a nonempty export
list — the union of all exports is nonempty and `pickRandomExport`
succeeds; consequently the whole generation pipeline never hits the
`unwrap` error on any random stream. -/
theorem claim10_pick_safety (s0 : GenState) (stream : Nat → Nat) :
    pickM ([] : List TrialExport) s0 = none
    ∧ (s0.modules ≠ [] → (∀ m ∈ s0.modules, m.exports ≠ []) →
        s0.modules.flatMap (fun m => m.exports) ≠ []
        ∧ ∃ ex s', pickRandomExport s0 = some (ex, s'))
    ∧ (genTrial stream).isSome := by
  refine ⟨pickM_nil s0, ?_, ?_⟩
  · intro hne hexp
    have hflat : s0.modules.flatMap (fun m => m.exports) ≠ [] := by
      obtain ⟨m0, hm0⟩ := List.exists_mem_of_ne_nil s0.modules hne
      obtain ⟨e0, he0⟩ := List.exists_mem_of_ne_nil m0.exports (hexp m0 hm0)
      exact List.ne_nil_of_mem (List.mem_flatMap.mpr ⟨m0, hm0, he0⟩)
    refine ⟨hflat, ?_⟩
    obtain ⟨x, hx, hpick⟩ := pickM_eq_some _ s0 hflat
    refine ⟨x, { s0 with pos := s0.pos + 1 }, ?_⟩
    simp only [pickRandomExport, GenM.bind_def, getModules_eq]
    exact hpick
  · obtain ⟨c, ms, hgen, _⟩ := genTrial_spec stream
    rw [hgen]
    rfl

def wState : GenState :=
  { counter := 4, modules := zerosModules, stream := zerosStream, pos := 0 }

theorem claim10_witness :
    wState.modules ≠ []
    ∧ (∀ m ∈ wState.modules, m.exports ≠ [])
    ∧ pickM ([] : List TrialExport) wState = none
    ∧ (wState.modules.flatMap (fun m => m.exports) ≠ []
        ∧ ∃ ex s', pickRandomExport wState = some (ex, s'))
    ∧ (genTrial zerosStream).isSome :=
  ⟨by decide, by decide,
    (claim10_pick_safety wState zerosStream).1,
    (claim10_pick_safety wState zerosStream).2.1 (by decide) (by decide),
    (claim10_pick_safety wState zerosStream).2.2⟩
